import Mathlib

/-!
# Process scheduling simulators: Round Robin and Shortest Remaining Time

A shallow embedding of `process.hpp`, `rrs.cpp` (`RRScheduler::schedule`) and
`srts.cpp` (`SRTScheduler::schedule`).

Conventions of the embedding.

* C++ `int` is `Int`, without wrap-around. The embedding computes what the
  code computes as long as no value leaves the range of a 32-bit `int`; a
  general theorem that states the value of the clock or of a start, completion,
  turnaround, waiting or response time assumes that the latest arrival time
  plus the total burst time is at most `INT_MAX`, which keeps every value of the
  run in that range. Theorems about one particular small workload are
  evaluations and need no such hypothesis.
* A `std::vector<Process>` is a `List Process`; an index outside the vector is
  reported as `Outcome.outOfBounds`.
* A `while` loop is a function recursive on a fuel counter; a loop that is
  still running when the fuel is used up gives `Outcome.outOfFuel`.
* The constructor of `Process` leaves `_response_time` uninitialised; the field
  is an `Option Int`, `none` standing for "never assigned".
* `std::queue<int>` is the list of its entries, front first.
* `std::sort` is an insertion sort that keeps the order of records with equal
  arrival times (`sortByArrival`); `scheduleSorted` is the part of
  `SRTScheduler::schedule` after the sort, for theorems that hold whatever order
  the sort leaves. `std::priority_queue` is any implementation that meets its
  contract (`PQImpl.Lawful`), and `listQueue` is one of them.
* `usleep` and the mutex of `srts.cpp` have no effect on the values computed and
  are left out.

The file has the definitions first (the embedding, then the predicates the
proofs use), then the theorems.
-/

/-- What a run of a simulated member function ends in. -/
inductive Outcome (α : Type) where
  | returned (a : α) : Outcome α
  | outOfFuel : Outcome α
  | outOfBounds : Outcome α
  deriving DecidableEq, Repr

/-- Composition of fallible steps (the first failure ends the run). -/
def Outcome.andThen {α β : Type} (x : Outcome α) (f : α → Outcome β) : Outcome β :=
  match x with
  | .returned a => f a
  | .outOfFuel => .outOfFuel
  | .outOfBounds => .outOfBounds

/-- Apply a function to the value a run returned. -/
def Outcome.mapReturned {α β : Type} (f : α → β) (x : Outcome α) : Outcome β :=
  x.andThen (fun a => .returned (f a))

/-- Class `Process` of `process.hpp`. -/
structure Process where
  _pid : Int
  _arrival_time : Int
  _burst_time : Int
  _remaining_time : Int
  _start_time : Int
  _completion_time : Int
  _waiting_time : Int
  _turnaround_time : Int
  _response_time : Option Int
  deriving DecidableEq, Repr

/-- Constructor `Process(pid, arrival, burst)`: remaining time is the burst,
start, completion, waiting and turnaround are `-1`, response time is left
uninitialised. -/
def Process.new (pid arrival burst : Int) : Process :=
  { _pid := pid, _arrival_time := arrival, _burst_time := burst,
    _remaining_time := burst, _start_time := -1, _completion_time := -1,
    _waiting_time := -1, _turnaround_time := -1, _response_time := none }

/-- The largest value of a C++ `int` (32 bits). When the latest arrival time
plus the total burst time is at most `INT_MAX`, no value a run computes leaves
the range of `int`, and the arithmetic of the embedding is that of the code. -/
def INT_MAX : Int := 2147483647

namespace RRScheduler

/-- Locals of `RRScheduler::schedule` together with the process vector. -/
structure State where
  _processes : List Process
  ready_queue : List Nat
  current_time : Int
  completed : Nat
  completed_process : List Nat
  deriving DecidableEq, Repr

/-- The scan of a copy of the ready queue for index `i` (`already_in_queue`). -/
def already_in_queue : List Nat → Nat → Bool
  | [], _ => false
  | x :: temp_queue, i => if x = i then true else already_in_queue temp_queue i

/-- Body of the admission loop for one index `i`: an index that is not marked
completed, has arrived and has work left is pushed unless it is already queued. -/
def admitOne (ps : List Process) (cp : List Nat) (t : Int) (q : List Nat) (i : Nat) :
    List Nat :=
  match cp[i]?, ps[i]? with
  | some c, some p =>
    if c = 0 ∧ p._arrival_time ≤ t ∧ p._remaining_time > 0 then
      (if already_in_queue q i then q else q ++ [i])
    else q
  | _, _ => q

/-- The admission loop `for (int i = 0; i < n; i++)`. -/
def admission (ps : List Process) (cp : List Nat) (t : Int) (q : List Nat) : List Nat :=
  (List.range ps.length).foldl (admitOne ps cp t) q

/-- Idle skip: when the queue is empty and `completed < n`, the first index not
marked completed is pushed and the clock is set to its arrival time. -/
def idleSkip (ps : List Process) (cp : List Nat) (completed : Nat) (q : List Nat)
    (t : Int) : List Nat × Int :=
  if q.isEmpty ∧ completed < ps.length then
    match (List.range ps.length).find? (fun i => cp[i]? = some 0) with
    | some i =>
      match ps[i]? with
      | some p => (q ++ [i], p._arrival_time)
      | none => (q, t)
    | none => (q, t)
  else (q, t)

/-- One iteration of `while (completed < n)`. With an empty ready queue the
iteration changes nothing. -/
def iteration (quantum : Int) (s : State) : Outcome State :=
  match s.ready_queue with
  | [] => .returned s
  | pid :: queue =>
    match s._processes[pid]? with
    | none => .outOfBounds
    | some p =>
      let p1 : Process :=
        if p._remaining_time = p._burst_time then
          { p with _response_time := some (s.current_time - p._arrival_time) }
        else p
      let time_slice := min quantum p1._remaining_time
      let p2 : Process := { p1 with _remaining_time := p1._remaining_time - time_slice }
      let t := s.current_time + time_slice
      let done : Bool := p2._remaining_time = 0
      let cp := if done then s.completed_process.set pid 1 else s.completed_process
      let completed := if done then s.completed + 1 else s.completed
      let p3 : Process :=
        if done then { p2 with _turnaround_time := t - p2._arrival_time } else p2
      let ps := s._processes.set pid p3
      let q1 := admission ps cp t queue
      let q2 := if cp[pid]? = some 0 then q1 ++ [pid] else q1
      let (q3, t3) := idleSkip ps cp completed q2 t
      .returned { _processes := ps, ready_queue := q3, current_time := t3,
                  completed := completed, completed_process := cp }

/-- The loop `while (completed < n)`. -/
def loop (quantum : Int) : Nat → State → Outcome State
  | 0, _ => .outOfFuel
  | fuel + 1, s =>
    if s.completed < s._processes.length then
      (iteration quantum s).andThen (loop quantum fuel)
    else .returned s

/-- State on entry to the loop: every remaining time reset to the burst time,
and index 0 pushed on the ready queue. -/
def init (processes : List Process) : State :=
  { _processes := processes.map (fun p => { p with _remaining_time := p._burst_time }),
    ready_queue := [0],
    current_time := 0,
    completed := 0,
    completed_process := List.replicate processes.length 0 }

/-- Member function `RRScheduler::schedule`: the process vector on return. -/
def schedule (fuel : Nat) (processes : List Process) (quantum : Int) :
    Outcome (List Process) :=
  (loop quantum fuel (init processes)).mapReturned (fun s => s._processes)

end RRScheduler

/-- Workload of `main` in `rrs.cpp` and `srts.cpp`. -/
def mainWorkload : List Process :=
  [Process.new 0 0 8, Process.new 1 1 4, Process.new 2 2 9, Process.new 3 3 5]

namespace SRTScheduler

/-- Comparator handed to `std::sort`: `p1._arrival_time < p2._arrival_time`. -/
def arrivalLess (p1 p2 : Process) : Bool := decide (p1._arrival_time < p2._arrival_time)

/-- Insertion of `p` in front of the first entry that is not less than it. -/
def insertByArrival (p : Process) : List Process → List Process
  | [] => [p]
  | x :: xs => if arrivalLess x p then x :: insertByArrival p xs else p :: x :: xs

/-- The call `std::sort(_processes.begin(), _processes.end(), arrivalLess)`, as
an insertion sort: ascending arrival time, and processes with equal arrival
times keep their relative order. -/
def sortByArrival : List Process → List Process
  | [] => []
  | p :: ps => insertByArrival p (sortByArrival ps)

/-- The lambda `cmp` given to the priority queue:
`p1._remaining_time > p2._remaining_time`. -/
def cmp (p1 p2 : Process) : Bool := decide (p1._remaining_time > p2._remaining_time)

/-- Operations of a `std::priority_queue<Process, std::vector<Process>, cmp>`;
`pop` gives `top()` together with the queue after `pop()`, and `contents` lists
the entries the queue holds. -/
structure PQImpl where
  σ : Type
  empty : σ
  push : σ → Process → σ
  pop : σ → Option (Process × σ)
  contents : σ → List Process

/-- Contract of `std::priority_queue`: a new queue is empty, `push` adds one
entry, `pop` succeeds on a queue that holds an entry and removes one entry `p`
above which `cmp` ranks no entry of the queue (`cmp p q` is false for every
entry `q`). -/
structure PQImpl.Lawful (Q : PQImpl) : Prop where
  contents_empty : Q.contents Q.empty = []
  contents_push : ∀ s p, (Q.contents (Q.push s p)).Perm (p :: Q.contents s)
  pop_some : ∀ s p s1, Q.pop s = some (p, s1) →
    (Q.contents s).Perm (p :: Q.contents s1) ∧ ∀ q ∈ Q.contents s, cmp p q = false
  pop_nonempty : ∀ s, Q.contents s ≠ [] → Q.pop s ≠ none

/-- Top of a list of entries: an entry no entry has less remaining time than,
the earliest pushed among those. -/
def listTop : List Process → Option Process
  | [] => none
  | p :: ps =>
    match listTop ps with
    | none => some p
    | some m => if cmp p m then some m else some p

/-- A priority queue kept as the list of its entries in the order they were
pushed. -/
def listQueue : PQImpl :=
  { σ := List Process,
    empty := [],
    push := fun s p => s ++ [p],
    pop := fun s => (listTop s).map (fun p => (p, s.erase p)),
    contents := fun s => s }

/-- Locals of `SRTScheduler::schedule` together with the process vector. -/
structure State (Q : PQImpl) where
  _processes : List Process
  pq : Q.σ
  current_time : Int
  completed : Nat

/-- The admission loop: every record whose arrival time is the current time is
pushed (by value) on the priority queue. -/
def admission (Q : PQImpl) (ps : List Process) (t : Int) (pq : Q.σ) : Q.σ :=
  ps.foldl (fun acc process => if process._arrival_time = t then Q.push acc process else acc) pq

/-- The assignment `_processes[current_process._pid] = current_process`. -/
def writeBack (ps : List Process) (current_process : Process) : Outcome (List Process) :=
  if 0 ≤ current_process._pid ∧ current_process._pid.toNat < ps.length then
    .returned (ps.set current_process._pid.toNat current_process)
  else .outOfBounds

/-- The dispatched copy after one tick of execution that started at time `t`:
start time set on the first dispatch, remaining time decremented, and the
completion metrics set when nothing remains. -/
def execute (t : Int) (top : Process) : Process :=
  let p1 : Process := if top._start_time = -1 then { top with _start_time := t } else top
  let p2 : Process := { p1 with _remaining_time := p1._remaining_time - 1 }
  if p2._remaining_time = 0 then
    { p2 with _completion_time := t + 1,
              _turnaround_time := t + 1 - p2._arrival_time,
              _waiting_time := t + 1 - p2._arrival_time - p2._burst_time }
  else p2

/-- One iteration of `while (completed != n)`. -/
def tick (Q : PQImpl) (s : State Q) : Outcome (State Q) :=
  let pq1 := admission Q s._processes s.current_time s.pq
  match Q.pop pq1 with
  | some (top, pq2) =>
    let current_process := execute s.current_time top
    if current_process._remaining_time = 0 then
      (writeBack s._processes current_process).andThen (fun ps =>
        .returned { _processes := ps, pq := pq2, current_time := s.current_time + 1,
                    completed := s.completed + 1 })
    else
      .returned { _processes := s._processes, pq := Q.push pq2 current_process,
                  current_time := s.current_time + 1, completed := s.completed }
  | none =>
    .returned { _processes := s._processes, pq := pq1,
                current_time := s.current_time + 1, completed := s.completed }

/-- The loop `while (completed != n)`. -/
def loop (Q : PQImpl) : Nat → State Q → Outcome (State Q)
  | 0, _ => .outOfFuel
  | fuel + 1, s =>
    if s.completed ≠ s._processes.length then (tick Q s).andThen (loop Q fuel)
    else .returned s

/-- State on entry to the loop, the vector already sorted. -/
def init (Q : PQImpl) (sorted : List Process) : State Q :=
  { _processes := sorted, pq := Q.empty, current_time := 0, completed := 0 }

/-- Member function `SRTScheduler::schedule`: the process vector on return. -/
def schedule (Q : PQImpl) (fuel : Nat) (processes : List Process) : Outcome (List Process) :=
  (loop Q fuel (init Q (sortByArrival processes))).mapReturned (fun s => s._processes)

/-- The part of `SRTScheduler::schedule` after its call of `std::sort` has left
the vector `sorted`: `schedule Q fuel processes` is
`scheduleSorted Q fuel (sortByArrival processes)`. -/
def scheduleSorted (Q : PQImpl) (fuel : Nat) (sorted : List Process) :
    Outcome (List Process) :=
  (loop Q fuel (init Q sorted)).mapReturned (fun s => s._processes)

/-- The process the iteration started in state `s` takes from the queue. -/
def dispatched (Q : PQImpl) (s : State Q) : Option Process :=
  (Q.pop (admission Q s._processes s.current_time s.pq)).map Prod.fst

/-- The entries of the queue at the moment the iteration started in state `s`
selects: the entries held before, and those admitted at this tick. -/
def ready (Q : PQImpl) (s : State Q) : List Process :=
  Q.contents (admission Q s._processes s.current_time s.pq)

/-- The states at the head of the loop during a run from the sorted vector. -/
inductive Reachable (Q : PQImpl) (sorted : List Process) : State Q → Prop where
  | entry : Reachable Q sorted (init Q sorted)
  | step (s s1 : State Q) : Reachable Q sorted s → s.completed ≠ s._processes.length →
      tick Q s = .returned s1 → Reachable Q sorted s1

end SRTScheduler

namespace FCFS

/-- Service order of First-Come-First-Served: `p1` is served no later than `p2`
when it arrives earlier, or at the same time with a pid that is not larger. -/
def servedBefore (p1 p2 : Process) : Prop :=
  p1._arrival_time < p2._arrival_time ∨
    (p1._arrival_time = p2._arrival_time ∧ p1._pid ≤ p2._pid)

instance : DecidableRel servedBefore := fun p1 p2 => by
  unfold servedBefore
  exact inferInstance

/-- The processes in ascending arrival order, ties by ascending pid. -/
def order (ps : List Process) : List Process := ps.insertionSort servedBefore

/-- Serving the processes one after the other without preemption: each starts at
the maximum of its arrival time and the previous completion time, and waits from
its arrival to its start. The result pairs every pid with its waiting time. -/
def serve (previousCompletion : Int) : List Process → List (Int × Int)
  | [] => []
  | p :: rest =>
    let start := max p._arrival_time previousCompletion
    (p._pid, start - p._arrival_time) :: serve (start + p._burst_time) rest

/-- Waiting time of process `pid` under First-Come-First-Served. -/
def waiting (ps : List Process) (pid : Int) : Option Int :=
  (serve 0 (order ps)).lookup pid

end FCFS

namespace SRTScheduler

/-! ## Predicates used to state the loop invariant of `SRTScheduler::schedule` -/

/-- A record of the vector that was written back on completion, no later than
`ta`, in a run whose admission has reached time `ta`. -/
def DoneRec (ta : Int) (r : Process) : Prop :=
  r._remaining_time = 0 ∧ r._arrival_time ≤ r._start_time ∧
    r._start_time + r._burst_time ≤ r._completion_time ∧
    r._turnaround_time = r._completion_time - r._arrival_time ∧
    r._waiting_time = r._turnaround_time - r._burst_time ∧ r._arrival_time < ta ∧
    0 ≤ r._arrival_time ∧ 0 < r._burst_time ∧ r._completion_time ≤ ta

/-- A record of the vector as the constructor left it. -/
def FreshRec (r : Process) : Prop :=
  r._remaining_time = r._burst_time ∧ 0 < r._burst_time ∧ r._start_time = -1 ∧
    0 ≤ r._arrival_time

/-- An entry of the priority queue: admitted before `ta`, with work left, and
either never dispatched or started after its arrival and executed for
`burst - remaining` ticks by time `tp`. -/
def Live (ta tp : Int) (q : Process) : Prop :=
  0 < q._remaining_time ∧ 0 ≤ q._arrival_time ∧ q._arrival_time < ta ∧
    0 < q._burst_time ∧
    ((q._start_time = -1 ∧ q._remaining_time = q._burst_time) ∨
     (q._arrival_time ≤ q._start_time ∧
      q._start_time + (q._burst_time - q._remaining_time) ≤ tp))

/-- Indicator of a completed record. -/
def doneInd (r : Process) : Nat := if r._remaining_time = 0 then 1 else 0

/-- Work of a record that has not been admitted by time `ta`. -/
def pendInd (ta : Int) (r : Process) : Nat :=
  if r._remaining_time ≠ 0 ∧ ta ≤ r._arrival_time then r._burst_time.toNat else 0

/-- Loop invariant over the vector `ps`, the entries `c` of the priority queue,
the admission time `ta`, the clock `tp` and the counter `completed`; `orig` is
the sorted vector the loop started from and `B` bounds the arrival times. -/
structure Inv (orig : List Process) (B : Int) (ps c : List Process) (ta tp : Int)
    (completed : Nat) : Prop where
  time_nonneg : 0 ≤ tp
  time_le : tp ≤ ta
  len : ps.length = orig.length
  static : ∀ (i : Nat) (r : Process), ps[i]? = some r →
    ∃ o, orig[i]? = some o ∧ r._arrival_time = o._arrival_time ∧
      r._burst_time = o._burst_time
  records : ∀ (i : Nat) (r : Process), ps[i]? = some r →
    r._pid = (i : Int) ∧ (DoneRec ta r ∨ (FreshRec r ∧ r._arrival_time ≤ B))
  entry : ∀ q ∈ c, Live ta tp q ∧
    ∃ (i : Nat) (r : Process), q._pid = (i : Int) ∧ ps[i]? = some r ∧
      r._remaining_time ≠ 0 ∧ r._arrival_time < ta ∧
      q._arrival_time = r._arrival_time ∧ q._burst_time = r._burst_time
  nodup : (c.map (fun q => q._pid)).Nodup
  admitted : ∀ (i : Nat) (r : Process), ps[i]? = some r → r._remaining_time ≠ 0 →
    r._arrival_time < ta → (i : Int) ∈ c.map (fun q => q._pid)
  count : completed = (ps.map doneInd).sum

/-- Termination measure: ticks left before the last arrival, plus the work left
in the queue, plus the work not admitted yet. -/
def potential (B : Int) (ps c : List Process) (ta : Int) : Nat :=
  (B - ta).toNat + (c.map (fun q => q._remaining_time.toNat)).sum +
    (ps.map (pendInd ta)).sum

end SRTScheduler

namespace FCFS

/-- Completion time of the last process when the processes of the list are
served one after the other, the first no earlier than `previousCompletion`. -/
def finish (previousCompletion : Int) : List Process → Int
  | [] => previousCompletion
  | p :: rest => finish (max p._arrival_time previousCompletion + p._burst_time) rest

end FCFS

namespace RRScheduler

/-- Loop invariant of `RRScheduler::schedule` for a quantum that no burst time
exceeds, on a vector `v` stored in arrival order: after `k` iterations the first
`k` processes are completed, each with the response time of First-Come-First-
Served, the others are untouched, the ready queue holds `k` and the indices
after it that have arrived, and the clock is the time at which
First-Come-First-Served starts process `k`. -/
structure FcfsInv (v : List Process) (k : Nat) (s : State) : Prop where
  len : s._processes.length = v.length
  cpLen : s.completed_process.length = v.length
  cp : ∀ i, i < v.length → s.completed_process[i]? = some (if i < k then 1 else 0)
  completed : s.completed = k
  served : ∀ (i : Nat) (r : Process), i < k → s._processes[i]? = some r →
    ∃ o, v[i]? = some o ∧ r._pid = o._pid ∧
      r._response_time =
        some (max o._arrival_time (FCFS.finish 0 (v.take i)) - o._arrival_time)
  untouched : ∀ i, k ≤ i → s._processes[i]? = v[i]?
  queue : k < v.length → ∃ len, 0 < len ∧ k + len ≤ v.length ∧
    s.ready_queue = List.range' k len ∧
    ∀ (i : Nat) (r : Process), k ≤ i → i < k + len → v[i]? = some r →
      r._arrival_time ≤ s.current_time
  time : ∀ r, v[k]? = some r →
    s.current_time = max r._arrival_time (FCFS.finish 0 (v.take k))

end RRScheduler

namespace RRScheduler

/-! ## Predicates used to state the loop invariant of `RRScheduler::schedule` -/

/-- The states at the head of the loop during a run of `schedule`. -/
inductive Reachable (quantum : Int) (processes : List Process) : State → Prop where
  | entry : Reachable quantum processes (init processes)
  | step (s s1 : State) : Reachable quantum processes s →
      s.completed < s._processes.length → iteration quantum s = .returned s1 →
      Reachable quantum processes s1

/-- Loop invariant of `RRScheduler::schedule` for a positive quantum: the
flags are 0 or 1, the queue holds indices of the vector, every remaining time
is between 0 and the burst time, a process whose flag is 0 has work left, the
counter is at least the number of flags set, and the queue is not empty while
the counter is below the number of processes. -/
structure LoopInv (s : State) : Prop where
  cpLen : s.completed_process.length = s._processes.length
  cpBit : ∀ c ∈ s.completed_process, c ≤ 1
  queueBound : ∀ i ∈ s.ready_queue, i < s._processes.length
  remBounds : ∀ r ∈ s._processes,
    0 ≤ r._remaining_time ∧ r._remaining_time ≤ r._burst_time
  notDone : ∀ (i : Nat) (r : Process), s.completed_process[i]? = some 0 →
    s._processes[i]? = some r → 0 < r._remaining_time
  counted : s.completed_process.sum ≤ s.completed
  nonempty : s.completed < s._processes.length → s.ready_queue ≠ []

/-- Range invariant of the clock, for a workload with arrival times >= 0 whose
latest arrival time plus total burst time is at most `INT_MAX`: the clock is not
negative, and the clock plus the work left is at most `INT_MAX`. -/
structure ClockInv (s : State) : Prop where
  timeNonneg : 0 ≤ s.current_time
  arrNonneg : ∀ r ∈ s._processes, 0 ≤ r._arrival_time
  arrBound : ∀ r ∈ s._processes,
    r._arrival_time + (s._processes.map (fun q => q._burst_time)).sum ≤ INT_MAX
  total : s.current_time + (s._processes.map (fun q => q._remaining_time)).sum ≤ INT_MAX

/-- Termination measure of the loop: the work left plus the number of
increments of `completed` left before the loop ends. -/
def measure (s : State) : Nat :=
  (s._processes.map (fun r => r._remaining_time.toNat)).sum +
    (s._processes.length - s.completed)

end RRScheduler

namespace RRScheduler

/-- The state of the run of `main` in `rrs.cpp` (quantum 3) after its first
iteration: process 0 has run for one quantum and is queued twice. -/
def mainAfterFirstSlice : State :=
  { _processes :=
      [{ Process.new 0 0 8 with _remaining_time := 5, _response_time := some 0 },
       Process.new 1 1 4, Process.new 2 2 9, Process.new 3 3 5],
    ready_queue := [0, 1, 2, 3, 0],
    current_time := 3,
    completed := 0,
    completed_process := [0, 0, 0, 0] }

end RRScheduler

/-! ## General facts about runs -/

theorem Outcome.andThen_eq_returned {α β : Type} {x : Outcome α} {f : α → Outcome β} {b : β}
    (h : x.andThen f = .returned b) : ∃ a, x = .returned a ∧ f a = .returned b := by
  cases x with
  | returned a => exact ⟨a, rfl, h⟩
  | outOfFuel => simp [Outcome.andThen] at h
  | outOfBounds => simp [Outcome.andThen] at h

theorem Outcome.mapReturned_eq_returned {α β : Type} {x : Outcome α} {f : α → β} {b : β}
    (h : x.mapReturned f = .returned b) : ∃ a, x = .returned a ∧ f a = b := by
  obtain ⟨a, ha, hb⟩ := Outcome.andThen_eq_returned h
  exact ⟨a, ha, by simpa using hb⟩

namespace RRScheduler

/-! ## Round Robin: runs and fuel -/

theorem rr_loop_fuel_add (quantum : Int) (k : Nat) :
    ∀ (fuel : Nat) (s s1 : State), loop quantum fuel s = .returned s1 →
      loop quantum (fuel + k) s = .returned s1 := by
  intro fuel
  induction fuel with
  | zero => intro s s1 h; simp [loop] at h
  | succ f ih =>
    intro s s1 h
    rw [Nat.add_right_comm]
    simp only [loop] at h ⊢
    split_ifs at h ⊢ with hc
    · obtain ⟨a, ha, hb⟩ := Outcome.andThen_eq_returned h
      rw [ha]
      exact ih a s1 hb
    · exact h

theorem rr_schedule_fuel_add (fuel k : Nat) (ps out : List Process) (quantum : Int)
    (h : schedule fuel ps quantum = .returned out) :
    schedule (fuel + k) ps quantum = .returned out := by
  unfold schedule at h ⊢
  obtain ⟨s, hs, hout⟩ := Outcome.mapReturned_eq_returned h
  rw [rr_loop_fuel_add quantum k fuel _ s hs]
  simp [Outcome.mapReturned, Outcome.andThen, hout]

theorem rr_schedule_deterministic (f1 f2 : Nat) (ps out1 out2 : List Process) (quantum : Int)
    (h1 : schedule f1 ps quantum = .returned out1)
    (h2 : schedule f2 ps quantum = .returned out2) : out1 = out2 := by
  have e1 := rr_schedule_fuel_add f1 f2 ps out1 quantum h1
  have e2 := rr_schedule_fuel_add f2 f1 ps out2 quantum h2
  rw [Nat.add_comm] at e2
  rw [e1] at e2
  exact Outcome.returned.inj e2

/-- The run of `main` in `rrs.cpp` (quantum 3) returns after nine iterations. -/
theorem rr_schedule_main :
    schedule 10 mainWorkload 3 = .returned
      [{ Process.new 0 0 8 with _remaining_time := 0, _turnaround_time := 17,
                                _response_time := some 0 },
       { Process.new 1 1 4 with _remaining_time := 0, _turnaround_time := 17,
                                _response_time := some 5 },
       { Process.new 2 2 9 with _remaining_time := 6, _response_time := some 7 },
       { Process.new 3 3 5 with _remaining_time := 2, _response_time := some 9 }] := by
  decide

/-- C1 (remaining time is zero for every process on return) fails on the
workload of `main` with quantum 3: with any fuel of at least ten iterations the
run returns, and it leaves 6 units of process 2 and 2 units of process 3 undone. -/
theorem C1_main_returns_with_work_left (k : Nat) :
    (schedule (10 + k) mainWorkload 3).mapReturned
      (fun ps => ps.map (fun p => p._remaining_time)) = .returned [0, 0, 6, 2] := by
  rw [rr_schedule_fuel_add 10 k _ _ 3 rr_schedule_main]
  decide

/-- C2 (response times 0, 2, 7 and 9 on the workload of `main` with quantum 3)
fails on the code: the run returns (with any fuel of at least ten iterations)
response time 5 for process 1. Process 0 is queued twice after its first slice
and runs the slices 0-3 and 3-6, so process 1 is first dispatched at time 6. -/
theorem C2_main_response_times (k : Nat) :
    (schedule (10 + k) mainWorkload 3).mapReturned
      (fun ps => ps.map (fun p => (p._pid, p._response_time))) =
      .returned [(0, some 0), (1, some 5), (2, some 7), (3, some 9)] := by
  rw [rr_schedule_fuel_add 10 k _ _ 3 rr_schedule_main]
  decide

/-- C3 (turnaround assigned and at least the burst for every process) fails on
the workload of `main` with quantum 3: the run returns with the turnaround time
of processes 2 and 3 still at the constructor value `-1`. -/
theorem C3_main_turnaround_unassigned (k : Nat) :
    (schedule (10 + k) mainWorkload 3).mapReturned
      (fun ps => ps.map (fun p => (p._turnaround_time, p._burst_time))) =
      .returned [(17, 8), (17, 4), (-1, 9), (-1, 5)] := by
  rw [rr_schedule_fuel_add 10 k _ _ 3 rr_schedule_main]
  decide

/-- C4 (no index twice in the ready queue) fails on the workload of `main` with
quantum 3: the first iteration leaves index 0 in the ready queue twice. -/
theorem C4_main_queue_holds_index_twice :
    (iteration 3 (init mainWorkload)).mapReturned (fun s => s.ready_queue) =
      .returned [0, 1, 2, 3, 0] := by
  decide

end RRScheduler
namespace SRTScheduler

/-! ## Shortest Remaining Time: the priority queue and the admission loop -/

theorem cmp_eq_false {p q : Process} :
    cmp p q = false ↔ p._remaining_time ≤ q._remaining_time := by
  simp [cmp]

theorem listTop_spec : ∀ (l : List Process) (p : Process), listTop l = some p →
    p ∈ l ∧ ∀ q ∈ l, cmp p q = false := by
  intro l
  induction l with
  | nil => intro p h; simp [listTop] at h
  | cons a l ih =>
    intro p h
    simp only [listTop] at h
    cases hl : listTop l with
    | none =>
      rw [hl] at h
      simp only [Option.some.injEq] at h
      subst h
      cases l with
      | nil => simp [cmp]
      | cons b l =>
        simp only [listTop] at hl
        split at hl
        · simp at hl
        · split at hl <;> simp at hl
    | some m =>
      rw [hl] at h
      obtain ⟨hm, hmin⟩ := ih m hl
      simp only at h
      split_ifs at h with hc
      · simp only [Option.some.injEq] at h
        subst h
        refine ⟨List.mem_cons_of_mem _ hm, ?_⟩
        intro q hq
        rcases List.mem_cons.mp hq with rfl | hq
        · simp only [cmp, decide_eq_true_eq, decide_eq_false_iff_not, not_lt] at hc ⊢
          omega
        · exact hmin q hq
      · simp only [Option.some.injEq] at h
        subst h
        refine ⟨List.mem_cons_self _ _, ?_⟩
        intro q hq
        rcases List.mem_cons.mp hq with rfl | hq
        · simp [cmp]
        · have := hmin q hq
          simp only [cmp, decide_eq_true_eq, decide_eq_false_iff_not, not_lt] at hc this ⊢
          omega

theorem listTop_ne_none : ∀ (l : List Process), l ≠ [] → listTop l ≠ none := by
  intro l hl
  cases l with
  | nil => exact absurd rfl hl
  | cons a l =>
    simp only [listTop]
    split
    · simp
    · split <;> simp

/-- The list queue meets the contract of `std::priority_queue`. -/
theorem listQueue_lawful : listQueue.Lawful where
  contents_empty := rfl
  contents_push := fun s p => by
    show (List.append s [p]).Perm (p :: s)
    exact List.perm_append_singleton p s
  pop_some := fun s p s1 h => by
    simp only [listQueue, Option.map_eq_some', Prod.mk.injEq] at h
    obtain ⟨a, ha, rfl, rfl⟩ := h
    obtain ⟨hmem, hmin⟩ := listTop_spec s a ha
    exact ⟨List.perm_cons_erase hmem, hmin⟩
  pop_nonempty := fun s hs => by
    have := listTop_ne_none s hs
    simp only [listQueue, ne_eq, Option.map_eq_none']
    exact this

theorem pop_eq_none_iff {Q : PQImpl} (hQ : Q.Lawful) (s : Q.σ) :
    Q.pop s = none ↔ Q.contents s = [] := by
  constructor
  · intro h
    by_contra hne
    exact hQ.pop_nonempty s hne h
  · intro h
    cases hp : Q.pop s with
    | none => rfl
    | some x =>
      obtain ⟨p, s1⟩ := x
      have := (hQ.pop_some s p s1 hp).1
      rw [h] at this
      exact absurd this.symm (List.cons_ne_nil _ _ ∘ List.Perm.eq_nil)

theorem contents_admission {Q : PQImpl} (hQ : Q.Lawful) (t : Int) :
    ∀ (ps : List Process) (pq : Q.σ),
      (Q.contents (admission Q ps t pq)).Perm
        (ps.filter (fun r => decide (r._arrival_time = t)) ++ Q.contents pq) := by
  intro ps
  induction ps using List.reverseRecOn with
  | nil => intro pq; simp [admission]
  | append_singleton l a ih =>
    intro pq
    simp only [admission, List.foldl_append, List.foldl_cons, List.foldl_nil, List.filter_append]
    by_cases ha : a._arrival_time = t
    · simp only [ha, if_true, List.filter_cons, decide_True, List.filter_nil]
      refine (hQ.contents_push _ a).trans ?_
      have := ih pq
      simp only [admission] at this
      refine (List.Perm.cons a this).trans ?_
      simp only [List.append_assoc, List.singleton_append]
      exact List.perm_middle.symm
    · simp only [ha, if_false, List.filter_cons, decide_False, List.filter_nil,
        List.append_nil, Bool.false_eq_true]
      exact ih pq

theorem srt_loop_fuel_add (Q : PQImpl) (k : Nat) :
    ∀ (fuel : Nat) (s s1 : State Q), loop Q fuel s = .returned s1 →
      loop Q (fuel + k) s = .returned s1 := by
  intro fuel
  induction fuel with
  | zero => intro s s1 h; simp [loop] at h
  | succ f ih =>
    intro s s1 h
    rw [Nat.add_right_comm]
    simp only [loop] at h ⊢
    split_ifs at h ⊢ with hc
    · obtain ⟨a, ha, hb⟩ := Outcome.andThen_eq_returned h
      rw [ha]
      exact ih a s1 hb
    · exact h

theorem srt_schedule_fuel_add (Q : PQImpl) (fuel k : Nat) (ps out : List Process)
    (h : schedule Q fuel ps = .returned out) :
    schedule Q (fuel + k) ps = .returned out := by
  unfold schedule at h ⊢
  obtain ⟨s, hs, hout⟩ := Outcome.mapReturned_eq_returned h
  rw [srt_loop_fuel_add Q k fuel _ s hs]
  simp [Outcome.mapReturned, Outcome.andThen, hout]

end SRTScheduler

namespace SRTScheduler

/-! ## Shortest Remaining Time: the loop invariant -/

theorem sum_map_set (f : Process → Nat) (a : Process) :
    ∀ (ps : List Process) (i : Nat) (r : Process), ps[i]? = some r →
      ((ps.set i a).map f).sum + f r = (ps.map f).sum + f a := by
  intro ps
  induction ps with
  | nil => intro i r h; simp at h
  | cons x xs ih =>
    intro i r h
    cases i with
    | zero =>
      simp only [List.getElem?_cons_zero, Option.some.injEq] at h
      subst h
      simp only [List.set_cons_zero, List.map_cons, List.sum_cons]
      omega
    | succ j =>
      simp only [List.getElem?_cons_succ] at h
      have := ih j r h
      simp only [List.set_cons_succ, List.map_cons, List.sum_cons]
      omega

theorem sum_doneInd_eq_length :
    ∀ (ps : List Process), (ps.map doneInd).sum = ps.length →
      ∀ r ∈ ps, r._remaining_time = 0 := by
  intro ps
  induction ps with
  | nil => intro _ r hr; simp at hr
  | cons x xs ih =>
    intro h r hr
    simp only [List.map_cons, List.sum_cons, List.length_cons] at h
    have hle : (xs.map doneInd).sum ≤ xs.length := by
      clear ih h hr
      induction xs with
      | nil => simp
      | cons y ys ihy =>
        simp only [List.map_cons, List.sum_cons, List.length_cons]
        have : doneInd y ≤ 1 := by unfold doneInd; split <;> omega
        omega
    have hx : doneInd x ≤ 1 := by unfold doneInd; split <;> omega
    rcases List.mem_cons.mp hr with rfl | hr
    · by_contra hne
      have : doneInd r = 0 := by simp [doneInd, hne]
      omega
    · exact ih (by omega) r hr

theorem sum_pend_split (t : Int) :
    ∀ (l : List Process),
      (∀ r ∈ l, pendInd t r = pendInd (t + 1) r +
        (if r._arrival_time = t then r._remaining_time.toNat else 0)) →
      (l.map (pendInd t)).sum = (l.map (pendInd (t + 1))).sum +
        ((l.filter (fun r => decide (r._arrival_time = t))).map
          (fun q => q._remaining_time.toNat)).sum := by
  intro l
  induction l with
  | nil => intro _; simp
  | cons x xs ih =>
    intro h
    have hx := h x (List.mem_cons_self _ _)
    have hxs := ih (fun r hr => h r (List.mem_cons_of_mem _ hr))
    simp only [List.map_cons, List.sum_cons, List.filter_cons]
    by_cases hax : x._arrival_time = t
    · simp only [hax, if_true, decide_True, List.map_cons, List.sum_cons] at hx ⊢
      omega
    · simp only [hax, if_false, decide_False, Bool.false_eq_true] at hx ⊢
      omega

theorem pids_nodup (ps : List Process)
    (h : ∀ (i : Nat) (r : Process), ps[i]? = some r → r._pid = (i : Int)) :
    (ps.map (fun q => q._pid)).Nodup := by
  rw [List.nodup_iff_getElem?_ne_getElem?]
  intro i j hij hj
  simp only [List.length_map] at hj
  simp only [List.getElem?_map]
  have hi : i < ps.length := by omega
  rw [List.getElem?_eq_getElem hi, List.getElem?_eq_getElem hj]
  simp only [Option.map_some', ne_eq, Option.some.injEq]
  rw [h i _ (List.getElem?_eq_getElem hi), h j _ (List.getElem?_eq_getElem hj)]
  omega

theorem Inv.admission_step {orig : List Process} {B : Int} {ps c c1 : List Process} {t : Int}
    {k : Nat} (inv : Inv orig B ps c t t k)
    (hc1 : c1.Perm (ps.filter (fun r => decide (r._arrival_time = t)) ++ c)) :
    Inv orig B ps c1 (t + 1) t k ∧ potential B ps c1 (t + 1) ≤ potential B ps c t ∧
      (t < B → potential B ps c1 (t + 1) < potential B ps c t) := by
  have hfresh : ∀ q ∈ ps.filter (fun r => decide (r._arrival_time = t)),
      ∃ i : Nat, ps[i]? = some q ∧ q._pid = (i : Int) ∧ q._arrival_time = t ∧
        FreshRec q := by
    intro q hq
    rw [List.mem_filter] at hq
    obtain ⟨hmem, hat⟩ := hq
    simp only [decide_eq_true_eq] at hat
    obtain ⟨i, hi⟩ := List.getElem?_of_mem hmem
    obtain ⟨hpid, hdf⟩ := inv.records i q hi
    refine ⟨i, hi, hpid, hat, ?_⟩
    rcases hdf with hd | hf
    · have := hd.2.2.2.2.2.1
      omega
    · exact hf.1
  refine ⟨⟨inv.time_nonneg, by omega, inv.len, inv.static, ?_, ?_, ?_, ?_, inv.count⟩, ?_⟩
  · intro i r hi
    obtain ⟨hpid, hdf⟩ := inv.records i r hi
    refine ⟨hpid, ?_⟩
    rcases hdf with hd | hf
    · left
      obtain ⟨h1, h2, h3, h4, h5, h6, h7, h8, h9⟩ := hd
      exact ⟨h1, h2, h3, h4, h5, by omega, h7, h8, by omega⟩
    · exact Or.inr hf
  · intro q hq
    rcases List.mem_append.mp (hc1.mem_iff.mp hq) with hq | hq
    · obtain ⟨i, hi, hpid, hat, hf⟩ := hfresh q hq
      obtain ⟨f1, f2, f3, f4⟩ := hf
      exact ⟨⟨by omega, f4, by omega, f2, Or.inl ⟨f3, f1⟩⟩, i, q, hpid, hi, by omega,
        by omega, rfl, rfl⟩
    · obtain ⟨⟨l1, l2, l3, l4⟩, i, r, e1, e2, e3, e4, e5⟩ := inv.entry q hq
      exact ⟨⟨l1, l2, by omega, l4⟩, i, r, e1, e2, e3, by omega, e5⟩
  · have hperm := hc1.map (fun q => q._pid)
    rw [hperm.nodup_iff, List.map_append, List.nodup_append]
    refine ⟨?_, inv.nodup, ?_⟩
    · exact (pids_nodup ps (fun i r hi => (inv.records i r hi).1)).sublist
        ((List.filter_sublist _).map _)
    · intro x hx1 hx2
      obtain ⟨a, ha, rfl⟩ := List.mem_map.mp hx1
      obtain ⟨q, hq, hqa⟩ := List.mem_map.mp hx2
      obtain ⟨i, hi, hpid, hat, _⟩ := hfresh a ha
      obtain ⟨_, j, r, e1, e2, _, e4, _⟩ := inv.entry q hq
      have hij : j = i := by
        have : (j : Int) = (i : Int) := by rw [← e1, ← hpid]; exact hqa
        exact_mod_cast this
      subst hij
      rw [hi] at e2
      simp only [Option.some.injEq] at e2
      subst e2
      omega
  · intro i r hi hrem harr
    have hperm := hc1.map (fun q => q._pid)
    rw [hperm.mem_iff, List.map_append, List.mem_append]
    by_cases hat : r._arrival_time = t
    · left
      refine List.mem_map.mpr ⟨r, ?_, (inv.records i r hi).1⟩
      rw [List.mem_filter]
      exact ⟨List.getElem?_mem hi, by simpa using hat⟩
    · right
      exact inv.admitted i r hi hrem (by omega)
  · have hsum : (c1.map (fun q => q._remaining_time.toNat)).sum =
        ((ps.filter (fun r => decide (r._arrival_time = t))).map
          (fun q => q._remaining_time.toNat)).sum +
        (c.map (fun q => q._remaining_time.toNat)).sum := by
      rw [(hc1.map _).sum_eq, List.map_append, List.sum_append]
    have hsplit := sum_pend_split t ps (by
      intro r hr
      obtain ⟨i, hi⟩ := List.getElem?_of_mem hr
      obtain ⟨_, hdf⟩ := inv.records i r hi
      rcases hdf with hd | hf
      · obtain ⟨h1, _, _, _, _, h6, _⟩ := hd
        have hne : ¬ r._arrival_time = t := by omega
        simp [pendInd, h1, hne]
      · obtain ⟨⟨f1, f2, f3, f4⟩, _⟩ := hf
        have hne : r._remaining_time ≠ 0 := by omega
        by_cases hat : r._arrival_time = t
        · have h1 : t ≤ r._arrival_time := by omega
          have h2 : ¬ (t + 1 ≤ r._arrival_time) := by omega
          rw [pendInd, pendInd, if_pos ⟨hne, h1⟩, if_neg (fun h => h2 h.2), if_pos hat, f1]
          omega
        · by_cases hle : t ≤ r._arrival_time
          · have h2 : t + 1 ≤ r._arrival_time := by omega
            simp [pendInd, hne, hat, hle, h2]
          · have h2 : ¬ (t + 1 ≤ r._arrival_time) := by omega
            simp [pendInd, hne, hat, hle, h2])
    unfold potential
    constructor
    · omega
    · intro hB
      omega

theorem execute_fields (t : Int) (top : Process) :
    (execute t top)._pid = top._pid ∧
    (execute t top)._arrival_time = top._arrival_time ∧
    (execute t top)._burst_time = top._burst_time ∧
    (execute t top)._remaining_time = top._remaining_time - 1 ∧
    (execute t top)._start_time = (if top._start_time = -1 then t else top._start_time) ∧
    (top._remaining_time - 1 = 0 →
      (execute t top)._completion_time = t + 1 ∧
      (execute t top)._turnaround_time = t + 1 - top._arrival_time ∧
      (execute t top)._waiting_time = t + 1 - top._arrival_time - top._burst_time) := by
  unfold execute
  by_cases hs : top._start_time = -1 <;> by_cases hr : top._remaining_time - 1 = 0 <;>
    simp [hs, hr]

theorem sum_doneInd_of_all_done :
    ∀ (ps : List Process), (∀ r ∈ ps, r._remaining_time = 0) →
      (ps.map doneInd).sum = ps.length := by
  intro ps
  induction ps with
  | nil => intro _; rfl
  | cons x xs ih =>
    intro h
    have hx : doneInd x = 1 := by simp [doneInd, h x (List.mem_cons_self _ _)]
    have := ih (fun r hr => h r (List.mem_cons_of_mem _ hr))
    simp only [List.map_cons, List.sum_cons, List.length_cons]
    omega

theorem Inv.idle_step {orig : List Process} {B : Int} {ps : List Process} {t : Int}
    {k : Nat} (inv : Inv orig B ps [] (t + 1) t k) (hk : k ≠ ps.length) :
    Inv orig B ps [] (t + 1) (t + 1) k ∧ t < B := by
  refine ⟨⟨by have := inv.time_nonneg; omega, le_refl _, inv.len, inv.static, inv.records,
    ?_, inv.nodup,
    inv.admitted, inv.count⟩, ?_⟩
  · intro q hq
    simp at hq
  · by_contra hlt
    apply hk
    rw [inv.count]
    apply sum_doneInd_of_all_done
    intro r hr
    by_contra hrem
    obtain ⟨i, hi⟩ := List.getElem?_of_mem hr
    obtain ⟨_, hdf⟩ := inv.records i r hi
    rcases hdf with hd | hf
    · exact hrem hd.1
    · have := inv.admitted i r hi hrem (by omega)
      simp at this

theorem Inv.top_facts {orig : List Process} {B : Int} {ps c1 c2 : List Process} {t : Int}
    {k : Nat} {top : Process}
    (inv : Inv orig B ps c1 (t + 1) t k) (hc : c1.Perm (top :: c2)) :
    Live (t + 1) t top ∧
    (∃ (i : Nat) (r : Process), top._pid = (i : Int) ∧ ps[i]? = some r ∧
      r._remaining_time ≠ 0 ∧ r._arrival_time < t + 1 ∧
      top._arrival_time = r._arrival_time ∧ top._burst_time = r._burst_time) ∧
    (c2.map (fun q => q._pid)).Nodup ∧ top._pid ∉ c2.map (fun q => q._pid) ∧
    (c1.map (fun q => q._remaining_time.toNat)).sum =
      top._remaining_time.toNat + (c2.map (fun q => q._remaining_time.toNat)).sum := by
  have hmem : top ∈ c1 := hc.mem_iff.mpr (List.mem_cons_self _ _)
  obtain ⟨hlive, hrec⟩ := inv.entry top hmem
  have hnd : (top._pid :: c2.map (fun q => q._pid)).Nodup := by
    have := (hc.map (fun q => q._pid)).nodup_iff.mp inv.nodup
    simpa using this
  rw [List.nodup_cons] at hnd
  refine ⟨hlive, hrec, hnd.2, hnd.1, ?_⟩
  rw [(hc.map _).sum_eq, List.map_cons, List.sum_cons]

theorem Inv.complete_step {orig : List Process} {B : Int} {ps c1 c2 : List Process}
    {t : Int} {k : Nat}
    {top : Process} (inv : Inv orig B ps c1 (t + 1) t k) (hc : c1.Perm (top :: c2))
    (hdone : (execute t top)._remaining_time = 0) :
    ∃ ps1, writeBack ps (execute t top) = .returned ps1 ∧
      Inv orig B ps1 c2 (t + 1) (t + 1) (k + 1) ∧
      potential B ps1 c2 (t + 1) < potential B ps c1 (t + 1) := by
  obtain ⟨⟨l1, l2, l3, l0, l4⟩, ⟨i, r, e1, e2, e3, e4, e5, e6⟩, hnd, hnotin, hsum⟩ :=
    inv.top_facts hc
  obtain ⟨x1, x2, x3, x4, x5, x6⟩ := execute_fields t top
  have hrem1 : top._remaining_time - 1 = 0 := by rw [← x4]; exact hdone
  obtain ⟨y1, y2, y3⟩ := x6 hrem1
  have hilt : i < ps.length := by
    obtain ⟨h, _⟩ := List.getElem?_eq_some.mp e2
    exact h
  have htonat : (execute t top)._pid.toNat = i := by rw [x1, e1]; simp
  have hwb : writeBack ps (execute t top) = .returned (ps.set i (execute t top)) := by
    unfold writeBack
    rw [htonat, if_pos ⟨by rw [x1, e1]; omega, hilt⟩]
  have hcdone : DoneRec (t + 1) (execute t top) := by
    refine ⟨hdone, ?_, ?_, ?_, ?_, ?_, by rw [x2]; exact l2, by rw [x3]; exact l0,
      by rw [y1]⟩
    · rw [x2, x5]; split_ifs with hs
      · omega
      · rcases l4 with ⟨h, _⟩ | ⟨h, _⟩
        · exact absurd h hs
        · exact h
    · rw [x5, x3, y1]; split_ifs with hs
      · rcases l4 with ⟨_, h⟩ | ⟨h, _⟩
        · omega
        · omega
      · rcases l4 with ⟨h, _⟩ | ⟨_, h⟩
        · exact absurd h hs
        · omega
    · rw [y2, y1, x2]
    · rw [y3, y2, x3]
    · rw [x2]; exact l3
  refine ⟨_, hwb, ⟨by have := inv.time_nonneg; omega, le_refl _, ?_, ?_, ?_, ?_, hnd, ?_,
    ?_⟩, ?_⟩
  · rw [List.length_set]; exact inv.len
  · intro j r1 hj
    rw [List.getElem?_set] at hj
    split_ifs at hj with hij
    · simp only [Option.some.injEq] at hj
      subst hj
      subst hij
      obtain ⟨o, ho, ho1, ho2⟩ := inv.static i r e2
      exact ⟨o, ho, by rw [x2, e5, ho1], by rw [x3, e6, ho2]⟩
    · exact inv.static j r1 hj
  · intro j r1 hj
    rw [List.getElem?_set] at hj
    split_ifs at hj with hij
    · simp only [Option.some.injEq] at hj
      subst hj
      subst hij
      exact ⟨by rw [x1, e1], Or.inl hcdone⟩
    · exact inv.records j r1 hj
  · intro q hq
    have hq1 : q ∈ c1 := hc.mem_iff.mpr (List.mem_cons_of_mem _ hq)
    obtain ⟨⟨m1, m2, m3, m0, m4⟩, j, r1, g1, g2, g3, g4⟩ := inv.entry q hq1
    refine ⟨⟨m1, m2, m3, m0, ?_⟩, j, r1, g1, ?_, g3, g4⟩
    · rcases m4 with h | ⟨h1, h2⟩
      · exact Or.inl h
      · exact Or.inr ⟨h1, by omega⟩
    · have hji : i ≠ j := by
        intro hij
        apply hnotin
        rw [e1, hij, ← g1]
        exact List.mem_map.mpr ⟨q, hq, rfl⟩
      rw [List.getElem?_set_ne hji]
      exact g2
  · intro j r1 hj hrem harr
    rw [List.getElem?_set] at hj
    split_ifs at hj with hij
    · simp only [Option.some.injEq] at hj
      subst hj
      exact absurd hdone hrem
    · have hin := inv.admitted j r1 hj hrem harr
      rw [(hc.map (fun q => q._pid)).mem_iff, List.map_cons, List.mem_cons] at hin
      rcases hin with h | h
      · exfalso
        apply hij
        have : (j : Int) = (i : Int) := by rw [h, e1]
        exact_mod_cast this.symm
      · exact h
  · have := sum_map_set doneInd (execute t top) ps i r e2
    have hr0 : doneInd r = 0 := by simp [doneInd, e3]
    have hc1 : doneInd (execute t top) = 1 := by simp [doneInd, hdone]
    rw [inv.count]
    omega
  · have := sum_map_set (pendInd (t + 1)) (execute t top) ps i r e2
    have hr0 : pendInd (t + 1) r = 0 := by
      unfold pendInd
      rw [if_neg]
      intro h
      omega
    have hc1 : pendInd (t + 1) (execute t top) = 0 := by simp [pendInd, hdone]
    unfold potential
    rw [hsum]
    omega

theorem Inv.preempt_step {orig : List Process} {B : Int} {ps c1 c2 c3 : List Process}
    {t : Int} {k : Nat}
    {top : Process} (inv : Inv orig B ps c1 (t + 1) t k) (hc : c1.Perm (top :: c2))
    (hleft : (execute t top)._remaining_time ≠ 0) (hc3 : c3.Perm (execute t top :: c2)) :
    Inv orig B ps c3 (t + 1) (t + 1) k ∧
      potential B ps c3 (t + 1) < potential B ps c1 (t + 1) := by
  obtain ⟨⟨l1, l2, l3, l0, l4⟩, ⟨i, r, e1, e2, e3, e4, e5, e6⟩, hnd, hnotin, hsum⟩ :=
    inv.top_facts hc
  obtain ⟨x1, x2, x3, x4, x5, _⟩ := execute_fields t top
  have hpids : (c3.map (fun q => q._pid)).Perm (c1.map (fun q => q._pid)) := by
    refine (hc3.map _).trans ?_
    rw [List.map_cons, x1, ← List.map_cons]
    exact (hc.map _).symm
  refine ⟨⟨by have := inv.time_nonneg; omega, le_refl _, inv.len, inv.static, inv.records,
    ?_, ?_, ?_, inv.count⟩, ?_⟩
  · intro q hq
    rcases List.mem_cons.mp (hc3.mem_iff.mp hq) with rfl | hq2
    · refine ⟨⟨by omega, by omega, by omega, by omega, Or.inr ?_⟩, i, r, by rw [x1, e1], e2,
        e3, e4, by rw [x2, e5], by rw [x3, e6]⟩
      rw [x2, x3, x4, x5]
      split_ifs with hs
      · rcases l4 with ⟨_, h⟩ | ⟨h, _⟩
        · constructor <;> omega
        · omega
      · rcases l4 with ⟨h, _⟩ | ⟨h1, h2⟩
        · exact absurd h hs
        · constructor <;> omega
    · have hq1 : q ∈ c1 := hc.mem_iff.mpr (List.mem_cons_of_mem _ hq2)
      obtain ⟨⟨m1, m2, m3, m0, m4⟩, hw⟩ := inv.entry q hq1
      refine ⟨⟨m1, m2, m3, m0, ?_⟩, hw⟩
      rcases m4 with h | ⟨h1, h2⟩
      · exact Or.inl h
      · exact Or.inr ⟨h1, by omega⟩
  · exact hpids.nodup_iff.mpr inv.nodup
  · intro j r1 hj hrem harr
    exact hpids.mem_iff.mpr (inv.admitted j r1 hj hrem harr)
  · unfold potential
    rw [hsum, (hc3.map _).sum_eq, List.map_cons, List.sum_cons, x4]
    omega

theorem tick_idle {Q : PQImpl} (s : State Q)
    (h : Q.pop (admission Q s._processes s.current_time s.pq) = none) :
    tick Q s = .returned
      { _processes := s._processes, pq := admission Q s._processes s.current_time s.pq,
        current_time := s.current_time + 1, completed := s.completed } := by
  simp only [tick, h]

theorem tick_complete {Q : PQImpl} (s : State Q) (top : Process) (pq2 : Q.σ)
    (h : Q.pop (admission Q s._processes s.current_time s.pq) = some (top, pq2))
    (hdone : (execute s.current_time top)._remaining_time = 0) :
    tick Q s = (writeBack s._processes (execute s.current_time top)).andThen (fun ps =>
      .returned { _processes := ps, pq := pq2, current_time := s.current_time + 1,
                  completed := s.completed + 1 }) := by
  simp only [tick, h, hdone, if_true]

theorem tick_preempt {Q : PQImpl} (s : State Q) (top : Process) (pq2 : Q.σ)
    (h : Q.pop (admission Q s._processes s.current_time s.pq) = some (top, pq2))
    (hleft : (execute s.current_time top)._remaining_time ≠ 0) :
    tick Q s = .returned
      { _processes := s._processes, pq := Q.push pq2 (execute s.current_time top),
        current_time := s.current_time + 1, completed := s.completed } := by
  simp only [tick, h, hleft, if_false]

/-- One iteration from a state that meets the invariant returns a state that
meets it, with a smaller termination measure and the clock one tick later. -/
theorem tick_spec {Q : PQImpl} (hQ : Q.Lawful) {orig : List Process} {B : Int} (s : State Q)
    (inv : Inv orig B s._processes (Q.contents s.pq) s.current_time s.current_time s.completed)
    (hk : s.completed ≠ s._processes.length) :
    ∃ s1, tick Q s = .returned s1 ∧
      Inv orig B s1._processes (Q.contents s1.pq) s1.current_time s1.current_time
        s1.completed ∧
      potential B s1._processes (Q.contents s1.pq) s1.current_time <
        potential B s._processes (Q.contents s.pq) s.current_time ∧
      s1.current_time = s.current_time + 1 := by
  obtain ⟨inv1, hle, hlt⟩ :=
    inv.admission_step (contents_admission hQ s.current_time s._processes s.pq)
  cases hpop : Q.pop (admission Q s._processes s.current_time s.pq) with
  | none =>
    have hnil := (pop_eq_none_iff hQ _).mp hpop
    rw [hnil] at inv1 hlt
    obtain ⟨inv2, hB⟩ := inv1.idle_step hk
    refine ⟨_, tick_idle s hpop, ?_, ?_, rfl⟩
    · simpa only [hnil] using inv2
    · simpa only [hnil] using hlt hB
  | some x =>
    obtain ⟨top, pq2⟩ := x
    obtain ⟨hperm, _⟩ := hQ.pop_some _ top pq2 hpop
    by_cases hdone : (execute s.current_time top)._remaining_time = 0
    · obtain ⟨ps1, hwb, inv2, hpot⟩ := inv1.complete_step hperm hdone
      refine ⟨{ _processes := ps1, pq := pq2, current_time := s.current_time + 1,
                completed := s.completed + 1 }, ?_, inv2, lt_of_lt_of_le hpot hle, rfl⟩
      rw [tick_complete s top pq2 hpop hdone, hwb]
      rfl
    · obtain ⟨inv2, hpot⟩ := inv1.preempt_step hperm hdone (hQ.contents_push pq2 _)
      exact ⟨_, tick_preempt s top pq2 hpop hdone, inv2, lt_of_lt_of_le hpot hle, rfl⟩

/-- From a state that meets the invariant the loop returns, once the fuel
exceeds the termination measure, in a state that meets the invariant and has
`completed` equal to the number of processes; the clock has advanced by no more
than the termination measure has gone down. -/
theorem loop_terminates {Q : PQImpl} (hQ : Q.Lawful) {orig : List Process} {B : Int} :
    ∀ (fuel : Nat) (s : State Q),
      Inv orig B s._processes (Q.contents s.pq) s.current_time s.current_time s.completed →
      potential B s._processes (Q.contents s.pq) s.current_time < fuel →
      ∃ s1, loop Q fuel s = .returned s1 ∧
        Inv orig B s1._processes (Q.contents s1.pq) s1.current_time s1.current_time
          s1.completed ∧
        s1.completed = s1._processes.length ∧
        s1.current_time + (potential B s1._processes (Q.contents s1.pq) s1.current_time : Nat) ≤
          s.current_time + (potential B s._processes (Q.contents s.pq) s.current_time : Nat) := by
  intro fuel
  induction fuel with
  | zero => intro s _ h; omega
  | succ f ih =>
    intro s inv hpot
    simp only [loop]
    by_cases hk : s.completed = s._processes.length
    · exact ⟨s, by simp [hk], inv, hk, le_refl _⟩
    · obtain ⟨s1, htick, inv1, hlt, htime⟩ := tick_spec hQ s inv hk
      obtain ⟨s2, hloop, inv2, hdone, hclock⟩ := ih s1 inv1 (by omega)
      refine ⟨s2, ?_, inv2, hdone, by omega⟩
      simp only [ne_eq, hk, not_false_eq_true, if_true, htick, Outcome.andThen]
      exact hloop

theorem insertByArrival_perm (p : Process) :
    ∀ (l : List Process), (insertByArrival p l).Perm (p :: l) := by
  intro l
  induction l with
  | nil => exact List.Perm.refl _
  | cons x xs ih =>
    simp only [insertByArrival]
    split_ifs
    · exact (List.Perm.cons x ih).trans (List.Perm.swap p x xs)
    · exact List.Perm.refl _

theorem sortByArrival_perm : ∀ (l : List Process), (sortByArrival l).Perm l := by
  intro l
  induction l with
  | nil => exact List.Perm.refl _
  | cons x xs ih =>
    simp only [sortByArrival]
    exact (insertByArrival_perm x _).trans (List.Perm.cons x ih)

theorem arrival_le_sum :
    ∀ (v : List Process) (r : Process), r ∈ v →
      r._arrival_time ≤ ((v.map (fun q => q._arrival_time.toNat)).sum : Nat) := by
  intro v
  induction v with
  | nil => intro r hr; simp at hr
  | cons x xs ih =>
    intro r hr
    simp only [List.map_cons, List.sum_cons, Nat.cast_add]
    rcases List.mem_cons.mp hr with rfl | hr
    · omega
    · have := ih r hr
      omega

theorem sum_doneInd_fresh :
    ∀ (v : List Process), (∀ r ∈ v, r._remaining_time ≠ 0) → (v.map doneInd).sum = 0 := by
  intro v
  induction v with
  | nil => intro _; rfl
  | cons x xs ih =>
    intro h
    have hx : doneInd x = 0 := by simp [doneInd, h x (List.mem_cons_self _ _)]
    have := ih (fun r hr => h r (List.mem_cons_of_mem _ hr))
    simp only [List.map_cons, List.sum_cons]
    omega

/-- The invariant holds on entry to the loop when every record of the sorted
vector is as the constructor left it and carries its index as pid, and `B`
bounds the arrival times. -/
theorem inv_init (Q : PQImpl) (hQ : Q.Lawful) (v : List Process) (B : Int)
    (hpid : ∀ (i : Nat) (r : Process), v[i]? = some r → r._pid = (i : Int))
    (hfresh : ∀ r ∈ v, FreshRec r) (hB : ∀ r ∈ v, r._arrival_time ≤ B) :
    Inv v B (init Q v)._processes
      (Q.contents (init Q v).pq) (init Q v).current_time (init Q v).current_time
      (init Q v).completed := by
  simp only [init, hQ.contents_empty]
  refine ⟨le_refl _, le_refl _, rfl, ?_, ?_, ?_, List.nodup_nil, ?_, ?_⟩
  · intro i r hi
    exact ⟨r, hi, rfl, rfl⟩
  · intro i r hi
    have hmem := List.getElem?_mem hi
    exact ⟨hpid i r hi, Or.inr ⟨hfresh r hmem, hB r hmem⟩⟩
  · intro q hq
    simp at hq
  · intro i r hi _ harr
    have := (hfresh r (List.getElem?_mem hi)).2.2.2
    omega
  · symm
    apply sum_doneInd_fresh
    intro r hr
    obtain ⟨f1, f2, _, _⟩ := hfresh r hr
    omega

/-- When the sorted workload holds pid `i` at index `i` (arrival times
non-negative, burst times positive, records as constructed) the run returns, for
every fuel above a bound, a vector in which the record at index `i` has pid `i`,
the arrival and burst time of the record the sorted vector had there, and is
completed. -/
theorem schedule_completes (Q : PQImpl) (hQ : Q.Lawful) (ps : List Process)
    (hpid : ∀ (i : Nat) (r : Process), (sortByArrival ps)[i]? = some r → r._pid = (i : Int))
    (hin : ∀ p ∈ ps, 0 ≤ p._arrival_time ∧ 0 < p._burst_time ∧
      p._remaining_time = p._burst_time ∧ p._start_time = -1) :
    ∃ N : Nat, ∀ fuel, N ≤ fuel → ∃ out, schedule Q fuel ps = .returned out ∧
      out.length = ps.length ∧
      ∀ (i : Nat) (r : Process), out[i]? = some r →
        r._pid = (i : Int) ∧
        (∃ o, (sortByArrival ps)[i]? = some o ∧ r._arrival_time = o._arrival_time ∧
          r._burst_time = o._burst_time) ∧
        ∃ ta, DoneRec ta r := by
  have hfresh : ∀ r ∈ sortByArrival ps, FreshRec r := by
    intro r hr
    obtain ⟨h1, h2, h3, h4⟩ := hin r ((sortByArrival_perm ps).mem_iff.mp hr)
    exact ⟨h3, h2, h4, h1⟩
  have inv0 := inv_init Q hQ (sortByArrival ps) _ hpid hfresh (arrival_le_sum _)
  refine ⟨potential ((((sortByArrival ps).map (fun q => q._arrival_time.toNat)).sum : Nat))
    (init Q (sortByArrival ps))._processes (Q.contents (init Q (sortByArrival ps)).pq)
    (init Q (sortByArrival ps)).current_time + 1, ?_⟩
  intro fuel hfuel
  obtain ⟨s1, hloop, inv1, hdone, _⟩ := loop_terminates hQ fuel _ inv0 (by omega)
  refine ⟨s1._processes, ?_, ?_, ?_⟩
  · simp only [schedule, hloop, Outcome.mapReturned, Outcome.andThen]
  · rw [inv1.len]
    exact (sortByArrival_perm ps).length_eq
  · intro i r hi
    obtain ⟨hp, hdf⟩ := inv1.records i r hi
    refine ⟨hp, inv1.static i r hi, ?_⟩
    rcases hdf with hd | hf
    · exact ⟨_, hd⟩
    · exfalso
      have hall := sum_doneInd_eq_length s1._processes (by rw [← inv1.count]; exact hdone)
        r (List.getElem?_mem hi)
      obtain ⟨⟨f1, f2, _, _⟩, _⟩ := hf
      omega

theorem sum_pendInd_le (ta : Int) :
    ∀ (v : List Process), (∀ r ∈ v, 0 ≤ r._burst_time) →
      (((v.map (pendInd ta)).sum : Nat) : Int) ≤ (v.map (fun q => q._burst_time)).sum := by
  intro v
  induction v with
  | nil => intro _; simp
  | cons x xs ih =>
    intro h
    have hx := h x (List.mem_cons_self _ _)
    have hxs := ih (fun r hr => h r (List.mem_cons_of_mem _ hr))
    have hp : ((pendInd ta x : Nat) : Int) ≤ x._burst_time := by
      unfold pendInd
      split_ifs
      · omega
      · simpa using hx
    simp only [List.map_cons, List.sum_cons, Nat.cast_add]
    omega

/-- The loop started on a vector `v` whose records are as the constructor left
them and carry their index as pid returns, for every fuel above a bound; every
record is then completed, and the clock is at most `B` plus the total burst
time, for every `B >= 0` that bounds the arrival times. -/
theorem run_completes (Q : PQImpl) (hQ : Q.Lawful) (v : List Process) (B : Int) (hB0 : 0 ≤ B)
    (hpid : ∀ (i : Nat) (r : Process), v[i]? = some r → r._pid = (i : Int))
    (hfresh : ∀ r ∈ v, FreshRec r) (hB : ∀ r ∈ v, r._arrival_time ≤ B) :
    ∃ N : Nat, ∀ fuel, N ≤ fuel → ∃ s1, loop Q fuel (init Q v) = .returned s1 ∧
      s1._processes.length = v.length ∧
      0 ≤ s1.current_time ∧
      s1.current_time ≤ B + (v.map (fun q => q._burst_time)).sum ∧
      ∀ (i : Nat) (r : Process), s1._processes[i]? = some r →
        r._pid = (i : Int) ∧
        (∃ o, v[i]? = some o ∧ r._arrival_time = o._arrival_time ∧
          r._burst_time = o._burst_time) ∧
        DoneRec s1.current_time r := by
  have inv0 := inv_init Q hQ v B hpid hfresh hB
  refine ⟨potential B (init Q v)._processes (Q.contents (init Q v).pq)
    (init Q v).current_time + 1, ?_⟩
  intro fuel hfuel
  obtain ⟨s1, hloop, inv1, hdone, hclock⟩ := loop_terminates hQ fuel _ inv0 (by omega)
  refine ⟨s1, hloop, inv1.len, inv1.time_nonneg, ?_, ?_⟩
  · have hpend := sum_pendInd_le 0 v (fun r hr => le_of_lt (hfresh r hr).2.1)
    have h0 : ((potential B (init Q v)._processes (Q.contents (init Q v).pq)
        (init Q v).current_time : Nat) : Int) ≤ B + (v.map (fun q => q._burst_time)).sum := by
      simp only [potential, init, hQ.contents_empty, List.map_nil, List.sum_nil, add_zero,
        sub_zero, Nat.cast_add]
      have : ((B.toNat : Nat) : Int) = B := Int.toNat_of_nonneg hB0
      omega
    have ht : (init Q v).current_time = 0 := rfl
    omega
  · intro i r hi
    obtain ⟨hp, hdf⟩ := inv1.records i r hi
    refine ⟨hp, inv1.static i r hi, ?_⟩
    rcases hdf with hd | hf
    · exact hd
    · exfalso
      have hall := sum_doneInd_eq_length s1._processes (by rw [← inv1.count]; exact hdone)
        r (List.getElem?_mem hi)
      obtain ⟨⟨f1, f2, _, _⟩, _⟩ := hf
      omega

/-- With the latest arrival time plus the total burst time at most `INT_MAX`,
the loop started on the sorted vector `v` returns with every record completed
and the clock between 0 and `INT_MAX`. -/
theorem run_completes_in_range (Q : PQImpl) (hQ : Q.Lawful) (v : List Process)
    (hpid : ∀ (i : Nat) (r : Process), v[i]? = some r → r._pid = (i : Int))
    (hin : ∀ p ∈ v, 0 ≤ p._arrival_time ∧ 0 < p._burst_time ∧
      p._remaining_time = p._burst_time ∧ p._start_time = -1)
    (hbound : ∀ p ∈ v, p._arrival_time + (v.map (fun q => q._burst_time)).sum ≤ INT_MAX) :
    ∃ N : Nat, ∀ fuel, N ≤ fuel → ∃ s1, loop Q fuel (init Q v) = .returned s1 ∧
      s1._processes.length = v.length ∧
      0 ≤ s1.current_time ∧ s1.current_time ≤ INT_MAX ∧
      ∀ (i : Nat) (r : Process), s1._processes[i]? = some r →
        r._pid = (i : Int) ∧
        (∃ o, v[i]? = some o ∧ r._arrival_time = o._arrival_time ∧
          r._burst_time = o._burst_time) ∧
        DoneRec s1.current_time r := by
  have hfresh : ∀ r ∈ v, FreshRec r := by
    intro r hr
    obtain ⟨h1, h2, h3, h4⟩ := hin r hr
    exact ⟨h3, h2, h4, h1⟩
  have hB0 : 0 ≤ INT_MAX - (v.map (fun q => q._burst_time)).sum := by
    cases v with
    | nil => simp [INT_MAX]
    | cons x xs =>
      have h1 := hbound x (List.mem_cons_self _ _)
      have h2 := (hin x (List.mem_cons_self _ _)).1
      omega
  obtain ⟨N, hN⟩ := run_completes Q hQ v (INT_MAX - (v.map (fun q => q._burst_time)).sum) hB0
    hpid hfresh (fun r hr => by have := hbound r hr; omega)
  refine ⟨N, fun fuel hfuel => ?_⟩
  obtain ⟨s1, hloop, hlen, h0, hle, hrec⟩ := hN fuel hfuel
  exact ⟨s1, hloop, hlen, h0, by omega, hrec⟩

/-- Claim C7. Let `v` be the process vector as the internal sort by arrival
time leaves it, with pid `i` at index `i`, arrival times non-negative, burst
times positive, the records as constructed, and the latest arrival time plus
the total burst time at most `INT_MAX` (no value of the run leaves the range of
`int`). Then `SRTScheduler::schedule` returns, and in the vector it leaves every
record has remaining time 0, a completion time that was set (it is positive and
at most `INT_MAX`), turnaround = completion - arrival and waiting = turnaround -
burst; the record at index `i` is the one of pid `i`, with the arrival and burst
time it had. -/
theorem C7_metrics_filled (Q : PQImpl) (hQ : Q.Lawful) (v : List Process)
    (hpid : ∀ (i : Nat) (r : Process), v[i]? = some r → r._pid = (i : Int))
    (hin : ∀ p ∈ v, 0 ≤ p._arrival_time ∧ 0 < p._burst_time ∧
      p._remaining_time = p._burst_time ∧ p._start_time = -1)
    (hbound : ∀ p ∈ v, p._arrival_time + (v.map (fun q => q._burst_time)).sum ≤ INT_MAX) :
    ∃ N : Nat, ∀ fuel, N ≤ fuel → ∃ out, scheduleSorted Q fuel v = .returned out ∧
      out.length = v.length ∧
      ∀ (i : Nat) (r : Process), out[i]? = some r →
        r._pid = (i : Int) ∧
        (∃ o, v[i]? = some o ∧ r._arrival_time = o._arrival_time ∧
          r._burst_time = o._burst_time) ∧
        r._remaining_time = 0 ∧ 0 < r._completion_time ∧ r._completion_time ≤ INT_MAX ∧
        r._turnaround_time = r._completion_time - r._arrival_time ∧
        r._waiting_time = r._turnaround_time - r._burst_time := by
  obtain ⟨N, hN⟩ := run_completes_in_range Q hQ v hpid hin hbound
  refine ⟨N, fun fuel hfuel => ?_⟩
  obtain ⟨s1, hloop, hlen, h0, hmax, hrec⟩ := hN fuel hfuel
  refine ⟨s1._processes, ?_, hlen, fun i r hi => ?_⟩
  · simp only [scheduleSorted, hloop, Outcome.mapReturned, Outcome.andThen]
  · obtain ⟨h1, h2, d1, d2, d3, d4, d5, d6, d7, d8, d9⟩ := hrec i r hi
    exact ⟨h1, h2, d1, by omega, by omega, d4, d5⟩

/-- Claim C8. Under the same preconditions (the vector `v` as the internal sort
leaves it has pid `i` at index `i`; latest arrival time plus total burst time at
most `INT_MAX`) `SRTScheduler::schedule` returns, and every record it leaves has
start >= arrival, completion >= start + burst, turnaround >= burst and
waiting >= 0, with every one of these values between 0 and `INT_MAX`. -/
theorem C8_metric_bounds (Q : PQImpl) (hQ : Q.Lawful) (v : List Process)
    (hpid : ∀ (i : Nat) (r : Process), v[i]? = some r → r._pid = (i : Int))
    (hin : ∀ p ∈ v, 0 ≤ p._arrival_time ∧ 0 < p._burst_time ∧
      p._remaining_time = p._burst_time ∧ p._start_time = -1)
    (hbound : ∀ p ∈ v, p._arrival_time + (v.map (fun q => q._burst_time)).sum ≤ INT_MAX) :
    ∃ N : Nat, ∀ fuel, N ≤ fuel → ∃ out, scheduleSorted Q fuel v = .returned out ∧
      out.length = v.length ∧
      ∀ (i : Nat) (r : Process), out[i]? = some r →
        r._pid = (i : Int) ∧
        (∃ o, v[i]? = some o ∧ r._arrival_time = o._arrival_time ∧
          r._burst_time = o._burst_time) ∧
        r._arrival_time ≤ r._start_time ∧
        r._start_time + r._burst_time ≤ r._completion_time ∧
        r._burst_time ≤ r._turnaround_time ∧ 0 ≤ r._waiting_time ∧
        0 ≤ r._arrival_time ∧ r._completion_time ≤ INT_MAX ∧
        r._turnaround_time ≤ INT_MAX ∧ r._waiting_time ≤ INT_MAX := by
  obtain ⟨N, hN⟩ := run_completes_in_range Q hQ v hpid hin hbound
  refine ⟨N, fun fuel hfuel => ?_⟩
  obtain ⟨s1, hloop, hlen, h0, hmax, hrec⟩ := hN fuel hfuel
  refine ⟨s1._processes, ?_, hlen, fun i r hi => ?_⟩
  · simp only [scheduleSorted, hloop, Outcome.mapReturned, Outcome.andThen]
  · obtain ⟨h1, h2, d1, d2, d3, d4, d5, d6, d7, d8, d9⟩ := hrec i r hi
    exact ⟨h1, h2, d2, d3, by omega, by omega, d7, by omega, by omega, by omega⟩

theorem sortByArrival_mainWorkload : sortByArrival mainWorkload = mainWorkload := by
  decide

theorem mainWorkload_pid_index (i : Nat) (r : Process)
    (h : (sortByArrival mainWorkload)[i]? = some r) : r._pid = (i : Int) := by
  rw [sortByArrival_mainWorkload] at h
  have hlt : i < 4 := by
    obtain ⟨hi, _⟩ := List.getElem?_eq_some.mp h
    simpa [mainWorkload] using hi
  interval_cases i <;> simp [mainWorkload, Process.new] at h <;> subst h <;> rfl

theorem mainWorkload_constructed : ∀ p ∈ mainWorkload,
    0 ≤ p._arrival_time ∧ 0 < p._burst_time ∧ p._remaining_time = p._burst_time ∧
      p._start_time = -1 := by
  decide

theorem mainWorkload_in_range : ∀ p ∈ sortByArrival mainWorkload,
    p._arrival_time + ((sortByArrival mainWorkload).map (fun q => q._burst_time)).sum ≤
      INT_MAX := by
  decide

theorem mainWorkload_sorted_constructed : ∀ p ∈ sortByArrival mainWorkload,
    0 ≤ p._arrival_time ∧ 0 < p._burst_time ∧ p._remaining_time = p._burst_time ∧
      p._start_time = -1 := by
  decide

/-- Instance of C7 on the workload of `main` in `srts.cpp`, with the list queue:
the run of `schedule` is the run of `scheduleSorted` on the sorted workload. -/
theorem C7_metrics_filled_witness :
    ∃ N : Nat, ∀ fuel, N ≤ fuel →
      ∃ out, schedule listQueue fuel mainWorkload = .returned out ∧
      out.length = (sortByArrival mainWorkload).length ∧
      ∀ (i : Nat) (r : Process), out[i]? = some r →
        r._pid = (i : Int) ∧
        (∃ o, (sortByArrival mainWorkload)[i]? = some o ∧
          r._arrival_time = o._arrival_time ∧ r._burst_time = o._burst_time) ∧
        r._remaining_time = 0 ∧ 0 < r._completion_time ∧ r._completion_time ≤ INT_MAX ∧
        r._turnaround_time = r._completion_time - r._arrival_time ∧
        r._waiting_time = r._turnaround_time - r._burst_time :=
  C7_metrics_filled listQueue listQueue_lawful (sortByArrival mainWorkload)
    mainWorkload_pid_index mainWorkload_sorted_constructed mainWorkload_in_range

/-- Instance of C8 on a sorted vector of two processes that arrive together. -/
theorem C8_metric_bounds_witness :
    ∃ N : Nat, ∀ fuel, N ≤ fuel →
      ∃ out, scheduleSorted listQueue fuel [Process.new 0 1 3, Process.new 1 1 2] =
        .returned out ∧
      out.length = [Process.new 0 1 3, Process.new 1 1 2].length ∧
      ∀ (i : Nat) (r : Process), out[i]? = some r →
        r._pid = (i : Int) ∧
        (∃ o, [Process.new 0 1 3, Process.new 1 1 2][i]? = some o ∧
          r._arrival_time = o._arrival_time ∧ r._burst_time = o._burst_time) ∧
        r._arrival_time ≤ r._start_time ∧
        r._start_time + r._burst_time ≤ r._completion_time ∧
        r._burst_time ≤ r._turnaround_time ∧ 0 ≤ r._waiting_time ∧
        0 ≤ r._arrival_time ∧ r._completion_time ≤ INT_MAX ∧
        r._turnaround_time ≤ INT_MAX ∧ r._waiting_time ≤ INT_MAX :=
  C8_metric_bounds listQueue listQueue_lawful [Process.new 0 1 3, Process.new 1 1 2]
    (by
      intro i r h
      have hlt : i < 2 := by
        obtain ⟨hi, _⟩ := List.getElem?_eq_some.mp h
        simpa using hi
      interval_cases i <;> simp [Process.new] at h <;> subst h <;> rfl)
    (by decide) (by decide)

/-! ## Shortest Remaining Time: the dispatched entry -/

theorem execute_arrival (t : Int) (top : Process) :
    (execute t top)._arrival_time = top._arrival_time := (execute_fields t top).2.1

/-- Every entry of the priority queue at the head of the loop arrived before
the current time. -/
theorem reachable_arrival {Q : PQImpl} (hQ : Q.Lawful) {sorted : List Process} {s : State Q}
    (hs : Reachable Q sorted s) :
    ∀ q ∈ Q.contents s.pq, q._arrival_time < s.current_time := by
  induction hs with
  | entry =>
    intro q hq
    simp [init, hQ.contents_empty] at hq
  | step s s1 _ _ htick ih =>
    have hadm : ∀ q ∈ Q.contents (admission Q s._processes s.current_time s.pq),
        q._arrival_time < s.current_time + 1 := by
      intro q hq
      rcases List.mem_append.mp ((contents_admission hQ _ _ _).mem_iff.mp hq) with h | h
      · have := (List.mem_filter.mp h).2
        simp only [decide_eq_true_eq] at this
        omega
      · have := ih q h
        omega
    cases hpop : Q.pop (admission Q s._processes s.current_time s.pq) with
    | none =>
      rw [tick_idle s hpop] at htick
      cases htick
      exact hadm
    | some x =>
      obtain ⟨top, pq2⟩ := x
      obtain ⟨hperm, _⟩ := hQ.pop_some _ top pq2 hpop
      by_cases hdone : (execute s.current_time top)._remaining_time = 0
      · rw [tick_complete s top pq2 hpop hdone] at htick
        obtain ⟨ps1, _, hret⟩ := Outcome.andThen_eq_returned htick
        cases hret
        intro q hq
        exact hadm q (hperm.mem_iff.mpr (List.mem_cons_of_mem _ hq))
      · rw [tick_preempt s top pq2 hpop hdone] at htick
        cases htick
        intro q hq
        rcases List.mem_cons.mp ((hQ.contents_push pq2 _).mem_iff.mp hq) with rfl | h
        · rw [execute_arrival]
          exact hadm top (hperm.mem_iff.mpr (List.mem_cons_self _ _))
        · exact hadm q (hperm.mem_iff.mpr (List.mem_cons_of_mem _ h))

/-- The dispatched entry is one of the entries the priority queue holds after
this tick's admission, each of those has arrived by the current tick, and none
of them has less remaining time than the dispatched one. -/
theorem dispatched_least_of_ready (Q : PQImpl) (hQ : Q.Lawful) (sorted : List Process)
    (s : State Q) (p : Process) (hs : Reachable Q sorted s)
    (hp : dispatched Q s = some p) :
    p ∈ ready Q s ∧
      ∀ q ∈ ready Q s, p._remaining_time ≤ q._remaining_time ∧
        q._arrival_time ≤ s.current_time := by
  unfold dispatched at hp
  unfold ready
  cases hpop : Q.pop (admission Q s._processes s.current_time s.pq) with
  | none => rw [hpop] at hp; simp at hp
  | some x =>
    obtain ⟨top, pq2⟩ := x
    rw [hpop] at hp
    simp only [Option.map_some', Option.some.injEq] at hp
    subst hp
    obtain ⟨hperm, hmin⟩ := hQ.pop_some _ top pq2 hpop
    refine ⟨hperm.mem_iff.mpr (List.mem_cons_self _ _), fun q hq => ⟨?_, ?_⟩⟩
    · exact cmp_eq_false.mp (hmin q hq)
    · rcases List.mem_append.mp ((contents_admission hQ _ _ _).mem_iff.mp hq) with h | h
      · have := (List.mem_filter.mp h).2
        simp only [decide_eq_true_eq] at this
        omega
      · have := reachable_arrival hQ hs q h
        omega

/-- The loop invariant holds in every state at the head of the loop, for a
sorted vector with pid `i` at index `i` and records as constructed. -/
theorem reachable_inv (Q : PQImpl) (hQ : Q.Lawful) (v : List Process) (B : Int)
    (hpid : ∀ (i : Nat) (r : Process), v[i]? = some r → r._pid = (i : Int))
    (hfresh : ∀ r ∈ v, FreshRec r) (hB : ∀ r ∈ v, r._arrival_time ≤ B)
    (s : State Q) (hs : Reachable Q v s) :
    Inv v B s._processes (Q.contents s.pq) s.current_time s.current_time s.completed := by
  induction hs with
  | entry => exact inv_init Q hQ v B hpid hfresh hB
  | step s s1 _ hk htick ih =>
    obtain ⟨s2, h2, inv2, _⟩ := tick_spec hQ s ih hk
    rw [htick] at h2
    cases h2
    exact inv2

/-- When the sorted vector `v` holds pid `i` at index `i` (arrival times
non-negative, burst times positive, records as constructed), every record that
has arrived by the current tick and is not completed has an entry in the queue
after this tick's admission, and the dispatched entry has no more remaining time
than that entry. -/
theorem dispatched_least_of_arrived (Q : PQImpl) (hQ : Q.Lawful) (v : List Process)
    (hpid : ∀ (i : Nat) (r : Process), v[i]? = some r → r._pid = (i : Int))
    (hin : ∀ p ∈ v, 0 ≤ p._arrival_time ∧ 0 < p._burst_time ∧
      p._remaining_time = p._burst_time ∧ p._start_time = -1)
    (s : State Q) (p : Process) (hs : Reachable Q v s) (hp : dispatched Q s = some p) :
    ∀ (i : Nat) (r : Process), s._processes[i]? = some r → r._remaining_time ≠ 0 →
      r._arrival_time ≤ s.current_time →
      ∃ q ∈ ready Q s, q._pid = (i : Int) ∧ p._remaining_time ≤ q._remaining_time := by
  intro i r hr hrem harr
  have hfresh : ∀ r ∈ v, FreshRec r := by
    intro r hr
    obtain ⟨h1, h2, h3, h4⟩ := hin r hr
    exact ⟨h3, h2, h4, h1⟩
  have inv := reachable_inv Q hQ v _ hpid hfresh (arrival_le_sum v) s hs
  have inv1 := (inv.admission_step
    (contents_admission hQ s.current_time s._processes s.pq)).1
  have hmem := inv1.admitted i r hr hrem (by omega)
  obtain ⟨q, hq, hqpid⟩ := List.mem_map.mp hmem
  exact ⟨q, hq, hqpid, ((dispatched_least_of_ready Q hQ v s p hs hp).2 q hq).1⟩

/-- C9 (the dispatched process has no more remaining time than any process that
has arrived and is not completed) fails on the input `[(1,0,1), (0,1,1),
(2,2,5)]` (pid, arrival, burst), which the sort leaves in this order. Tick 0
runs pid 1 to completion and writes its record at index 1 (its pid), over the
record of pid 0, which is due at time 1; tick 1 admits nothing and idles; at
tick 2 (clock 2, `completed` 1) the vector holds pid 1, pid 1, pid 2, the queue
holds pid 2 alone, and pid 2 is dispatched with remaining time 5, while pid 0
(arrival 1, burst 1) has arrived and has never run. -/
theorem C9_longer_process_runs_past_arrived_one :
    ((tick listQueue (init listQueue
        (sortByArrival [Process.new 1 0 1, Process.new 0 1 1, Process.new 2 2 5]))).andThen
      (tick listQueue)).mapReturned
      (fun s => (s.current_time, s.completed,
        s._processes.map (fun p => (p._pid, p._arrival_time, p._remaining_time)),
        (ready listQueue s).map (fun p => p._pid),
        (dispatched listQueue s).map (fun p => (p._pid, p._remaining_time)))) =
      .returned (2, 1, [(1, 0, 1), (1, 0, 0), (2, 2, 5)], [2], some (2, 5)) := by
  rfl

/-! ## Shortest Remaining Time: a workload of one process -/

theorem loop_step {Q : PQImpl} (fuel : Nat) (s s1 : State Q)
    (hk : s.completed ≠ s._processes.length) (htick : tick Q s = .returned s1) :
    loop Q (fuel + 1) s = loop Q fuel s1 := by
  simp only [loop, ne_eq, hk, not_false_eq_true, if_true, htick, Outcome.andThen]

theorem admission_single_ne (Q : PQImpl) (p : Process) (t : Int) (pq : Q.σ)
    (h : p._arrival_time ≠ t) : admission Q [p] t pq = pq := by
  simp [admission, h]

theorem admission_single_eq (Q : PQImpl) (p : Process) (t : Int) (pq : Q.σ)
    (h : p._arrival_time = t) : admission Q [p] t pq = Q.push pq p := by
  simp [admission, h]

theorem pop_single {Q : PQImpl} (hQ : Q.Lawful) (pq : Q.σ) (q : Process)
    (h : Q.contents pq = [q]) : ∃ pq2, Q.pop pq = some (q, pq2) ∧ Q.contents pq2 = [] := by
  cases hpop : Q.pop pq with
  | none =>
    have := (pop_eq_none_iff hQ pq).mp hpop
    rw [h] at this
    simp at this
  | some x =>
    obtain ⟨top, pq2⟩ := x
    obtain ⟨hperm, _⟩ := hQ.pop_some pq top pq2 hpop
    rw [h] at hperm
    have hlen := hperm.length_eq
    simp only [List.length_cons, List.length_nil] at hlen
    have hnil : Q.contents pq2 = [] := List.length_eq_zero.mp (by omega)
    rw [hnil] at hperm
    have := List.singleton_perm.mp hperm
    simp only [List.cons.injEq, and_true] at this
    subst this
    exact ⟨pq2, rfl, hnil⟩

/-- Idle ticks before the arrival of the only process. -/
theorem single_idle {Q : PQImpl} (hQ : Q.Lawful) (p : Process) (fuel : Nat) :
    ∀ (k : Nat) (pq : Q.σ) (t : Int), Q.contents pq = [] → t + k = p._arrival_time →
      loop Q (fuel + k) { _processes := [p], pq := pq, current_time := t, completed := 0 } =
      loop Q fuel { _processes := [p], pq := pq, current_time := p._arrival_time,
                    completed := 0 } := by
  intro k
  induction k with
  | zero =>
    intro pq t _ ht
    simp only [Nat.cast_zero, add_zero] at ht
    subst ht
    rfl
  | succ k ih =>
    intro pq t hpq ht
    have hne : p._arrival_time ≠ t := by push_cast at ht; omega
    have hadm := admission_single_ne Q p t pq hne
    have hpop : Q.pop (admission Q [p] t pq) = none := by
      rw [hadm]; exact (pop_eq_none_iff hQ pq).mpr hpq
    rw [← Nat.add_assoc, loop_step (fuel + k) _ _ (by simp) (tick_idle _ hpop)]
    simp only [hadm]
    exact ih pq (t + 1) hpq (by push_cast at ht; omega)

theorem writeBack_single (p r : Process) (h : r._pid = 0) :
    writeBack [p] r = .returned [r] := by
  simp [writeBack, h]

theorem single_run {Q : PQImpl} (hQ : Q.Lawful) (a b : Int) (ha : 0 ≤ a) :
    ∀ (j : Nat) (pq : Q.σ) (t : Int),
      Q.contents pq =
        [{ Process.new 0 a b with _start_time := a, _remaining_time := (j : Int) + 1 }] →
      t = a + b - ((j : Int) + 1) → a < t →
      (loop Q (j + 2)
        { _processes := [Process.new 0 a b], pq := pq, current_time := t,
          completed := 0 }).mapReturned (fun s => s._processes) =
      .returned
        [{ Process.new 0 a b with
          _remaining_time := 0, _start_time := a, _completion_time := a + b,
          _turnaround_time := b, _waiting_time := 0 }] := by
  intro j
  induction j with
  | zero =>
    intro pq t hc ht hat
    have hne : (Process.new 0 a b)._arrival_time ≠ t := by simp only [Process.new]; omega
    obtain ⟨pq2, hpop, _⟩ := pop_single hQ pq _ hc
    have hadm := admission_single_ne Q (Process.new 0 a b) t pq hne
    have hex : execute t
        { Process.new 0 a b with _start_time := a, _remaining_time := ((0 : Nat) : Int) + 1 } =
        { Process.new 0 a b with
          _remaining_time := 0, _start_time := a, _completion_time := a + b,
          _turnaround_time := b, _waiting_time := 0 } := by
      have hs : a ≠ -1 := by omega
      simp only [execute, Process.new, hs, if_false, Nat.cast_zero, zero_add, sub_self,
        if_true, Process.mk.injEq, true_and, and_true]
      refine ⟨?_, ?_, ?_⟩ <;> omega
    have htick : tick Q
        { _processes := [Process.new 0 a b], pq := pq, current_time := t, completed := 0 } =
        .returned { _processes := [execute t { Process.new 0 a b with
                                               _start_time := a,
                                               _remaining_time := ((0 : Nat) : Int) + 1 }],
                    pq := pq2, current_time := t + 1, completed := 0 + 1 } := by
      rw [tick_complete _ _ pq2 (by rw [hadm]; exact hpop) (by rw [hex])]
      show (writeBack [Process.new 0 a b] _).andThen _ = _
      rw [writeBack_single _ _ (by rw [hex]; rfl)]
      rfl
    rw [show 0 + 2 = 1 + 1 from rfl, loop_step 1 _ _ (by simp) htick, hex]
    simp [loop, Outcome.mapReturned, Outcome.andThen]
  | succ j ih =>
    intro pq t hc ht hat
    have hne : (Process.new 0 a b)._arrival_time ≠ t := by simp only [Process.new]; omega
    obtain ⟨pq2, hpop, hnil⟩ := pop_single hQ pq _ hc
    have hadm := admission_single_ne Q (Process.new 0 a b) t pq hne
    have hex : execute t
        { Process.new 0 a b with
          _start_time := a, _remaining_time := ((j + 1 : Nat) : Int) + 1 } =
        { Process.new 0 a b with _start_time := a, _remaining_time := (j : Int) + 1 } := by
      have hs : a ≠ -1 := by omega
      have hj : ¬ ((j : Int) + 1 + 1 - 1 = 0) := by omega
      simp only [execute, Process.new, hs, if_false, Nat.cast_add, Nat.cast_one, hj,
        Process.mk.injEq, true_and, and_true]
      omega
    have htick := tick_preempt
      { _processes := [Process.new 0 a b], pq := pq, current_time := t, completed := 0 }
      _ pq2 (by rw [hadm]; exact hpop) (by rw [hex]; simp only; omega)
    rw [show j + 1 + 2 = (j + 2) + 1 from rfl, loop_step (j + 2) _ _ (by simp) htick]
    refine ih _ (t + 1) ?_ (by push_cast at ht; omega) (by omega)
    have := hQ.contents_push pq2 (execute t { Process.new 0 a b with
                                              _start_time := a,
                                              _remaining_time := ((j + 1 : Nat) : Int) + 1 })
    rw [hnil] at this
    have hcontents := List.perm_singleton.mp this
    rw [hex] at hcontents
    show Q.contents (Q.push pq2 (execute t _)) = _
    rw [hex]
    exact hcontents

theorem single_dispatch {Q : PQImpl} (hQ : Q.Lawful) (a b : Int) (ha : 0 ≤ a) (hb : 0 < b)
    (pq : Q.σ) (hpq : Q.contents pq = []) :
    (loop Q (b.toNat + 1)
      { _processes := [Process.new 0 a b], pq := pq, current_time := a,
        completed := 0 }).mapReturned (fun s => s._processes) =
    .returned
      [{ Process.new 0 a b with
        _remaining_time := 0, _start_time := a, _completion_time := a + b,
        _turnaround_time := b, _waiting_time := 0 }] := by
  have hadm := admission_single_eq Q (Process.new 0 a b) a pq rfl
  have hc : Q.contents (Q.push pq (Process.new 0 a b)) = [Process.new 0 a b] := by
    have := hQ.contents_push pq (Process.new 0 a b)
    rw [hpq] at this
    exact List.perm_singleton.mp this
  obtain ⟨pq2, hpop, hnil⟩ := pop_single hQ _ _ hc
  by_cases hb1 : b = 1
  · subst hb1
    have hex : execute a (Process.new 0 a 1) =
        { Process.new 0 a 1 with
          _remaining_time := 0, _start_time := a, _completion_time := a + 1,
          _turnaround_time := 1, _waiting_time := 0 } := by
      simp only [execute, Process.new, if_true, sub_self, Process.mk.injEq, true_and, and_true]
      refine ⟨?_, ?_⟩ <;> omega
    have htick : tick Q
        { _processes := [Process.new 0 a 1], pq := pq, current_time := a, completed := 0 } =
        .returned { _processes := [execute a (Process.new 0 a 1)],
                    pq := pq2, current_time := a + 1, completed := 0 + 1 } := by
      rw [tick_complete _ _ pq2 (by rw [hadm]; exact hpop) (by rw [hex])]
      show (writeBack [Process.new 0 a 1] _).andThen _ = _
      rw [writeBack_single _ _ (by rw [hex]; rfl)]
      rfl
    rw [show (1 : Int).toNat + 1 = 1 + 1 from rfl, loop_step 1 _ _ (by simp) htick, hex]
    simp [loop, Outcome.mapReturned, Outcome.andThen]
  · obtain ⟨j, hj⟩ : ∃ j : Nat, b = (j : Int) + 2 := ⟨(b - 2).toNat, by omega⟩
    have hex : execute a (Process.new 0 a b) =
        { Process.new 0 a b with _start_time := a, _remaining_time := (j : Int) + 1 } := by
      have h0 : ¬ (b - 1 = 0) := by omega
      simp only [execute, Process.new, if_true, h0, if_false, Process.mk.injEq, true_and,
        and_true]
      omega
    have htick := tick_preempt
      { _processes := [Process.new 0 a b], pq := pq, current_time := a, completed := 0 }
      _ pq2 (by rw [hadm]; exact hpop) (by rw [hex]; simp only; omega)
    have hfuel : b.toNat + 1 = (j + 2) + 1 := by omega
    rw [hfuel, loop_step (j + 2) _ _ (by simp) htick]
    refine single_run hQ a b ha j _ (a + 1) ?_ (by omega) (by omega)
    have := hQ.contents_push pq2 (execute a (Process.new 0 a b))
    rw [hnil] at this
    rw [← hex]
    exact List.perm_singleton.mp this

/-- Claim C10. For a workload of one process with pid 0, arrival time `a >= 0`
and burst time `b > 0`, with `a + b` at most `INT_MAX` (the clock runs from 0 to
`a + b`, so no value of the run leaves the range of `int`),
`SRTScheduler::schedule` returns (for every fuel of at least `a + b + 1`
iterations) with start = a, completion = a + b, turnaround = b and
waiting = 0. -/
theorem C10_single_process (Q : PQImpl) (hQ : Q.Lawful) (a b : Int) (ha : 0 ≤ a)
    (hb : 0 < b) (_hbound : a + b ≤ INT_MAX) (extra : Nat) :
    schedule Q (a.toNat + b.toNat + 1 + extra) [Process.new 0 a b] =
      .returned
        [{ Process.new 0 a b with
          _remaining_time := 0, _start_time := a, _completion_time := a + b,
          _turnaround_time := b, _waiting_time := 0 }] := by
  apply srt_schedule_fuel_add
  have hidle := single_idle hQ (Process.new 0 a b) (b.toNat + 1) a.toNat Q.empty 0
    hQ.contents_empty (by simp only [Process.new]; omega)
  have hrun := single_dispatch hQ a b ha hb Q.empty hQ.contents_empty
  unfold schedule
  have hsort : sortByArrival [Process.new 0 a b] = [Process.new 0 a b] := rfl
  rw [hsort, show a.toNat + b.toNat + 1 = (b.toNat + 1) + a.toNat by omega]
  simp only [init]
  rw [hidle]
  exact hrun

/-- Instance of C10: one process arriving at time 3 with burst time 2. -/
theorem C10_single_process_witness :
    schedule listQueue (3 + 2 + 1 + 0) [Process.new 0 3 2] =
      .returned
        [{ Process.new 0 3 2 with
          _remaining_time := 0, _start_time := 3, _completion_time := 3 + 2,
          _turnaround_time := 2, _waiting_time := 0 }] :=
  C10_single_process listQueue listQueue_lawful 3 2 (by decide) (by decide) (by decide) 0

/-! ## Shortest Remaining Time: the order of the input -/

theorem insertByArrival_pairwise (p : Process) :
    ∀ (l : List Process), l.Pairwise (fun a b => a._arrival_time ≤ b._arrival_time) →
      (insertByArrival p l).Pairwise (fun a b => a._arrival_time ≤ b._arrival_time) := by
  intro l
  induction l with
  | nil => intro _; simp [insertByArrival]
  | cons x xs ih =>
    intro h
    obtain ⟨hx, hxs⟩ := List.pairwise_cons.mp h
    simp only [insertByArrival, arrivalLess]
    split_ifs with hlt
    · simp only [decide_eq_true_eq] at hlt
      refine List.pairwise_cons.mpr ⟨?_, ih hxs⟩
      intro b hb
      rcases List.mem_cons.mp ((insertByArrival_perm p xs).mem_iff.mp hb) with rfl | hb
      · omega
      · exact hx b hb
    · simp only [decide_eq_true_eq, not_lt] at hlt
      refine List.pairwise_cons.mpr ⟨?_, h⟩
      intro b hb
      rcases List.mem_cons.mp hb with rfl | hb
      · exact hlt
      · have := hx b hb
        omega

theorem sortByArrival_pairwise :
    ∀ (l : List Process),
      (sortByArrival l).Pairwise (fun a b => a._arrival_time ≤ b._arrival_time) := by
  intro l
  induction l with
  | nil => exact List.Pairwise.nil
  | cons x xs ih => exact insertByArrival_pairwise x _ ih

/-- Two inputs with the same records, no two of them with the same arrival
time, are sorted into the same vector. -/
theorem sortByArrival_eq_of_perm {ps ps1 : List Process} (hperm : ps1.Perm ps)
    (hdistinct : (ps.map (fun p => p._arrival_time)).Nodup) :
    sortByArrival ps1 = sortByArrival ps := by
  have strict : ∀ l : List Process, l.Perm ps →
      (sortByArrival l).Pairwise (fun a b => a._arrival_time < b._arrival_time) := by
    intro l hl
    have hnd : ((sortByArrival l).map (fun p => p._arrival_time)).Nodup :=
      ((((sortByArrival_perm l).trans hl).map _).nodup_iff).mpr hdistinct
    have hne := List.pairwise_map.mp hnd
    exact ((sortByArrival_pairwise l).and hne).imp (fun h => lt_of_le_of_ne h.1 h.2)
  haveI : IsAntisymm Process (fun a b => a._arrival_time < b._arrival_time) :=
    ⟨fun a b h1 h2 => absurd h1 (not_lt_of_gt h2)⟩
  exact List.eq_of_perm_of_sorted
    (((sortByArrival_perm ps1).trans hperm).trans (sortByArrival_perm ps).symm)
    (strict ps1 hperm) (strict ps (List.Perm.refl _))

/-- Claim C6, amended. For a workload in which no two processes arrive at the
same time and, after the sort by arrival time, index `i` holds pid `i` (arrival
times non-negative, burst times positive, records as constructed): for every
permutation of the input, `SRTScheduler::schedule` returns, and leaves the same
vector (so each pid has the same start, completion, turnaround and waiting
time) as for the input itself; in that vector index `i` holds pid `i`. -/
theorem C6_order_independent (Q : PQImpl) (hQ : Q.Lawful) (ps ps1 : List Process)
    (hperm : ps1.Perm ps)
    (hdistinct : (ps.map (fun p => p._arrival_time)).Nodup)
    (hpid : ∀ (i : Nat) (r : Process), (sortByArrival ps)[i]? = some r → r._pid = (i : Int))
    (hin : ∀ p ∈ ps, 0 ≤ p._arrival_time ∧ 0 < p._burst_time ∧
      p._remaining_time = p._burst_time ∧ p._start_time = -1) :
    ∃ N : Nat, ∀ fuel, N ≤ fuel → ∃ out,
      schedule Q fuel ps = .returned out ∧ schedule Q fuel ps1 = .returned out ∧
      out.length = ps.length ∧
      ∀ (i : Nat) (r : Process), out[i]? = some r → r._pid = (i : Int) := by
  obtain ⟨N, hN⟩ := schedule_completes Q hQ ps hpid hin
  refine ⟨N, fun fuel hfuel => ?_⟩
  obtain ⟨out, hrun, hlen, hrec⟩ := hN fuel hfuel
  refine ⟨out, hrun, ?_, hlen, fun i r hi => (hrec i r hi).1⟩
  rw [← hrun]
  unfold schedule
  rw [sortByArrival_eq_of_perm hperm hdistinct]

/-- Instance of C6 as amended: two processes arriving at times 0 and 2, given in
the other order. -/
theorem C6_order_independent_witness :
    ∃ N : Nat, ∀ fuel, N ≤ fuel → ∃ out,
      schedule listQueue fuel [Process.new 0 0 2, Process.new 1 2 3] = .returned out ∧
      schedule listQueue fuel [Process.new 1 2 3, Process.new 0 0 2] = .returned out ∧
      out.length = [Process.new 0 0 2, Process.new 1 2 3].length ∧
      ∀ (i : Nat) (r : Process), out[i]? = some r → r._pid = (i : Int) :=
  C6_order_independent listQueue listQueue_lawful
    [Process.new 0 0 2, Process.new 1 2 3] [Process.new 1 2 3, Process.new 0 0 2]
    (List.Perm.swap _ _ _) (by decide)
    (by
      intro i r h
      have e : sortByArrival [Process.new 0 0 2, Process.new 1 2 3] =
          [Process.new 0 0 2, Process.new 1 2 3] := by decide
      rw [e] at h
      have hlt : i < 2 := by
        obtain ⟨hi, _⟩ := List.getElem?_eq_some.mp h
        simpa using hi
      interval_cases i <;> simp [Process.new] at h <;> subst h <;> rfl)
    (by decide)

/-- After its third tick the run on `[(0,5,2), (1,0,3)]` idles for ever: the
record of pid 0 was overwritten, no record arrives later than time 0, the queue
is empty and `completed` stays at 1. -/
theorem clobbered_idles (fuel : Nat) :
    ∀ (t : Int), 0 < t →
      loop listQueue fuel
        { _processes := [Process.new 1 0 3, execute 2 (execute 1 (execute 0 (Process.new 1 0 3)))],
          pq := [], current_time := t, completed := 1 } = .outOfFuel := by
  induction fuel with
  | zero => intro t _; rfl
  | succ f ih =>
    intro t ht
    have hne : (0 : Int) ≠ t := by omega
    have hadm : admission listQueue
        [Process.new 1 0 3, execute 2 (execute 1 (execute 0 (Process.new 1 0 3)))] t [] = [] := by
      simp [admission, Process.new, execute, hne]
    rw [loop_step f _ _ (by simp) (tick_idle _ (by rw [hadm]; rfl))]
    simp only [hadm]
    exact ih (t + 1) (by omega)

/-- C6 as stated is false. (1) On the input `[(0,5,2), (1,0,3)]` (pid, arrival,
burst) the run never returns, whatever the fuel. (2) The inputs
`[(0,0,2), (1,0,2)]` and `[(1,0,2), (0,0,2)]` are permutations of each other,
both runs return, and pid 0 completes at time 2 in the first and at time 4 in
the second. -/
theorem C6_counterexample :
    (¬ ∃ (fuel : Nat) (out : List Process),
        schedule listQueue fuel [Process.new 0 5 2, Process.new 1 0 3] = .returned out) ∧
    ((schedule listQueue 5 [Process.new 0 0 2, Process.new 1 0 2]).mapReturned
        (fun out => out.map (fun p => (p._pid, p._start_time, p._completion_time))) =
      .returned [(0, 0, 2), (1, 2, 4)] ∧
     (schedule listQueue 5 [Process.new 1 0 2, Process.new 0 0 2]).mapReturned
        (fun out => out.map (fun p => (p._pid, p._start_time, p._completion_time))) =
      .returned [(0, 2, 4), (1, 0, 2)]) := by
  refine ⟨?_, by decide, by decide⟩
  rintro ⟨fuel, out, h⟩
  have h3 : ∀ k, loop listQueue (k + 3)
      (init listQueue (sortByArrival [Process.new 0 5 2, Process.new 1 0 3])) =
      .outOfFuel := by
    intro k
    rw [loop_step (k + 2) _ _ (by decide) (by rfl), loop_step (k + 1) _ _ (by decide) (by rfl),
      loop_step k _ _ (by decide) (by rfl)]
    exact clobbered_idles k 3 (by decide)
  have hall : schedule listQueue fuel [Process.new 0 5 2, Process.new 1 0 3] =
      .outOfFuel := by
    by_cases hf : fuel < 3
    · interval_cases fuel <;> decide
    · obtain ⟨k, rfl⟩ : ∃ k, fuel = k + 3 := ⟨fuel - 3, by omega⟩
      simp [schedule, h3 k, Outcome.mapReturned, Outcome.andThen]
  rw [hall] at h
  cases h

end SRTScheduler

namespace RRScheduler

/-! ## Round Robin with a quantum no burst time exceeds -/

theorem already_in_queue_eq (q : List Nat) (i : Nat) :
    already_in_queue q i = decide (i ∈ q) := by
  induction q with
  | nil => simp [already_in_queue]
  | cons x xs ih =>
    simp only [already_in_queue, ih, List.mem_cons]
    by_cases h : x = i
    · simp [h]
    · have h2 : ¬ i = x := fun e => h e.symm
      simp [h, h2]

theorem find_first_range (p : Nat → Bool) (m : Nat) (hm : p m = true)
    (hlt : ∀ i, i < m → p i = false) :
    ∀ n, m < n → (List.range n).find? p = some m := by
  intro n
  induction n with
  | zero => intro h; omega
  | succ n ih =>
    intro h
    rw [List.range_succ, List.find?_append]
    by_cases hmn : m < n
    · rw [ih hmn]; rfl
    · have : m = n := by omega
      subst this
      have hnone : (List.range m).find? p = none := by
        rw [List.find?_eq_none]
        intro x hx
        rw [List.mem_range] at hx
        simp [hlt x hx]
      rw [hnone]
      simp [hm]

/-- The iteration that dispatches index `k` on its first dispatch, with a
quantum no smaller than its burst time. -/
theorem iteration_first_dispatch (quantum : Int) (s : State) (k : Nat) (rest : List Nat)
    (p : Process) (hq : s.ready_queue = k :: rest) (hp : s._processes[k]? = some p)
    (hrem : p._remaining_time = p._burst_time)
    (hle : p._burst_time ≤ quantum) (hcp : k < s.completed_process.length) :
    iteration quantum s = .returned
      { _processes := s._processes.set k
          { p with _response_time := some (s.current_time - p._arrival_time),
                   _remaining_time := 0,
                   _turnaround_time := s.current_time + p._burst_time - p._arrival_time },
        ready_queue :=
          (idleSkip
            (s._processes.set k
              { p with _response_time := some (s.current_time - p._arrival_time),
                       _remaining_time := 0,
                       _turnaround_time := s.current_time + p._burst_time - p._arrival_time })
            (s.completed_process.set k 1) (s.completed + 1)
            (admission
              (s._processes.set k
                { p with _response_time := some (s.current_time - p._arrival_time),
                         _remaining_time := 0,
                         _turnaround_time :=
                           s.current_time + p._burst_time - p._arrival_time })
              (s.completed_process.set k 1) (s.current_time + p._burst_time) rest)
            (s.current_time + p._burst_time)).1,
        current_time :=
          (idleSkip
            (s._processes.set k
              { p with _response_time := some (s.current_time - p._arrival_time),
                       _remaining_time := 0,
                       _turnaround_time := s.current_time + p._burst_time - p._arrival_time })
            (s.completed_process.set k 1) (s.completed + 1)
            (admission
              (s._processes.set k
                { p with _response_time := some (s.current_time - p._arrival_time),
                         _remaining_time := 0,
                         _turnaround_time :=
                           s.current_time + p._burst_time - p._arrival_time })
              (s.completed_process.set k 1) (s.current_time + p._burst_time) rest)
            (s.current_time + p._burst_time)).2,
        completed := s.completed + 1,
        completed_process := s.completed_process.set k 1 } := by
  have hmin : min quantum p._burst_time = p._burst_time := min_eq_right hle
  have hcp1 : (s.completed_process.set k 1)[k]? = some 1 := by
    rw [List.getElem?_set_self hcp]
  simp only [iteration, hq, hp, hrem, if_true, hmin, sub_self, decide_True, hcp1,
    Option.some.injEq, one_ne_zero, if_false]

theorem sorted_arrival_le {v : List Process}
    (hsorted : v.Pairwise (fun a b => a._arrival_time ≤ b._arrival_time))
    {i j : Nat} {a b : Process} (hij : i < j) (ha : v[i]? = some a) (hb : v[j]? = some b) :
    a._arrival_time ≤ b._arrival_time := by
  obtain ⟨hi, rfl⟩ := List.getElem?_eq_some.mp ha
  obtain ⟨hj, rfl⟩ := List.getElem?_eq_some.mp hb
  exact List.pairwise_iff_getElem.mp hsorted i j hi hj hij

/-- The admission loop after the dispatch of index `k`, on a vector in arrival
order whose indices after `k` are untouched: the queue, a run of consecutive
indices from `k + 1`, is extended to the run of all indices after `k` that have
arrived by `t1`. -/
theorem admission_sorted (v ps1 : List Process) (cp1 : List Nat) (k : Nat) (t1 : Int)
    (hlen : ps1.length = v.length)
    (hcp : ∀ i, i < v.length → cp1[i]? = some (if i < k + 1 then 1 else 0))
    (hun : ∀ i, k + 1 ≤ i → ps1[i]? = v[i]?)
    (hsorted : v.Pairwise (fun a b => a._arrival_time ≤ b._arrival_time))
    (hfresh : ∀ r ∈ v, r._remaining_time = r._burst_time ∧ 0 < r._burst_time)
    (L0 : Nat) (hL0 : k + 1 + L0 ≤ v.length)
    (harr0 : ∀ (i : Nat) (r : Process), k + 1 ≤ i → i < k + 1 + L0 → v[i]? = some r →
      r._arrival_time ≤ t1) :
    ∃ L, admission ps1 cp1 t1 (List.range' (k + 1) L0) = List.range' (k + 1) L ∧
      k + 1 + L ≤ v.length ∧
      (∀ (i : Nat) (r : Process), k + 1 ≤ i → i < k + 1 + L → v[i]? = some r →
        r._arrival_time ≤ t1) ∧
      (∀ (i : Nat) (r : Process), k + 1 ≤ i → v[i]? = some r → r._arrival_time ≤ t1 →
        i < k + 1 + L) := by
  have main : ∀ j, j ≤ v.length →
      ∃ L, (List.range j).foldl (admitOne ps1 cp1 t1) (List.range' (k + 1) L0) =
          List.range' (k + 1) L ∧
        k + 1 + L ≤ v.length ∧
        (∀ (i : Nat) (r : Process), k + 1 ≤ i → i < k + 1 + L → v[i]? = some r →
          r._arrival_time ≤ t1) ∧
        (∀ (i : Nat) (r : Process), k + 1 ≤ i → i < j → v[i]? = some r →
          r._arrival_time ≤ t1 → i < k + 1 + L) := by
    intro j
    induction j with
    | zero =>
      intro _
      exact ⟨L0, rfl, hL0, harr0, fun i r _ h => by omega⟩
    | succ j ih =>
      intro hj
      obtain ⟨L, hfold, hL, hmem, hall⟩ := ih (by omega)
      have hjlt : j < v.length := by omega
      rw [List.range_succ, List.foldl_append, hfold]
      simp only [List.foldl_cons, List.foldl_nil]
      have hcpj := hcp j hjlt
      obtain ⟨pj, hpj⟩ : ∃ pj, ps1[j]? = some pj :=
        ⟨ps1[j], List.getElem?_eq_getElem (by omega)⟩
      by_cases hjk : j < k + 1
      · refine ⟨L, ?_, hL, hmem, ?_⟩
        · simp only [admitOne, hcpj, hpj, hjk, if_true, one_ne_zero, false_and, if_false]
        · intro i r h1 h2 h3 h4
          exact hall i r h1 (by omega) h3 h4
      · have hvj : v[j]? = some pj := by rw [← hun j (by omega)]; exact hpj
        obtain ⟨hr1, hr2⟩ := hfresh pj (List.getElem?_mem hvj)
        by_cases harr : pj._arrival_time ≤ t1
        · by_cases hin : j < k + 1 + L
          · refine ⟨L, ?_, hL, hmem, ?_⟩
            · have hmemq : j ∈ List.range' (k + 1) L := by
                rw [List.mem_range'_1]; omega
              simp only [admitOne, hcpj, hpj, hjk, if_false, already_in_queue_eq, hmemq,
                decide_True, if_true, ite_self]
            · intro i r h1 h2 h3 h4
              by_cases hij : i < j
              · exact hall i r h1 hij h3 h4
              · have : i = j := by omega
                subst this
                exact hin
          · have hjeq : j = k + 1 + L := by
              by_contra hne
              have hlt : k + 1 + L < j := by omega
              obtain ⟨r, hr⟩ : ∃ r, v[k + 1 + L]? = some r :=
                ⟨v[k + 1 + L], List.getElem?_eq_getElem (by omega)⟩
              have hle := sorted_arrival_le hsorted hlt hr hvj
              have := hall (k + 1 + L) r (by omega) hlt hr (by omega)
              omega
            refine ⟨L + 1, ?_, by omega, ?_, ?_⟩
            · have hmemq : ¬ j ∈ List.range' (k + 1) L := by
                rw [List.mem_range'_1]; omega
              have hrem : pj._remaining_time > 0 := by omega
              simp only [admitOne, hcpj, hpj, hjk, if_false, already_in_queue_eq, hmemq,
                decide_False, harr, hrem, and_self, if_true, Bool.false_eq_true]
              rw [List.range'_1_concat, hjeq]
            · intro i r h1 h2 h3
              by_cases hi : i < k + 1 + L
              · exact hmem i r h1 hi h3
              · have : i = j := by omega
                subst this
                rw [hvj] at h3
                cases h3
                exact harr
            · intro i r h1 h2 h3 h4
              omega
        · refine ⟨L, ?_, hL, hmem, ?_⟩
          · simp only [admitOne, hcpj, hpj, harr, false_and, and_false, if_false]
          · intro i r h1 h2 h3 h4
            by_cases hij : i < j
            · exact hall i r h1 hij h3 h4
            · have : i = j := by omega
              subst this
              rw [hvj] at h3
              cases h3
              exact absurd h4 harr
  obtain ⟨L, h1, h2, h3, h4⟩ := main v.length (le_refl _)
  refine ⟨L, ?_, h2, h3, ?_⟩
  · unfold admission
    rw [hlen]
    exact h1
  · intro i r hi hr harr
    have hlt : i < v.length := (List.getElem?_eq_some.mp hr).1
    exact h4 i r hi hlt hr harr

theorem idleSkip_nonempty (ps : List Process) (cp : List Nat) (c : Nat) (q : List Nat)
    (t : Int) (h : q ≠ []) : idleSkip ps cp c q t = (q, t) := by
  cases q with
  | nil => exact absurd rfl h
  | cons x xs => simp [idleSkip]

theorem idleSkip_all_done (ps : List Process) (cp : List Nat) (c : Nat) (q : List Nat)
    (t : Int) (h : ¬ c < ps.length) : idleSkip ps cp c q t = (q, t) := by
  simp [idleSkip, h]

theorem idleSkip_first (ps : List Process) (cp : List Nat) (c : Nat) (t : Int) (m : Nat)
    (r : Process) (hc : c < ps.length)
    (hfind : (List.range ps.length).find? (fun i => cp[i]? = some 0) = some m)
    (hr : ps[m]? = some r) : idleSkip ps cp c [] t = ([m], r._arrival_time) := by
  simp [idleSkip, hc, hfind, hr]

theorem finish_append (p : Process) :
    ∀ (l : List Process) (c : Int),
      FCFS.finish c (l ++ [p]) = max p._arrival_time (FCFS.finish c l) + p._burst_time := by
  intro l
  induction l with
  | nil => intro c; rfl
  | cons x xs ih => intro c; exact ih _

theorem finish_take_succ (v : List Process) (k : Nat) (p : Process) (hp : v[k]? = some p) :
    FCFS.finish 0 (v.take (k + 1)) =
      max p._arrival_time (FCFS.finish 0 (v.take k)) + p._burst_time := by
  rw [List.take_succ, hp]
  exact finish_append p _ 0

/-- One iteration from a state that meets the invariant for `k < n` returns a
state that meets it for `k + 1`. -/
theorem fcfs_step (quantum : Int) (v : List Process)
    (hsorted : v.Pairwise (fun a b => a._arrival_time ≤ b._arrival_time))
    (hfresh : ∀ r ∈ v, r._remaining_time = r._burst_time ∧ 0 < r._burst_time ∧
      r._burst_time ≤ quantum)
    (k : Nat) (s : State) (inv : FcfsInv v k s) (hk : k < v.length) :
    ∃ s1, iteration quantum s = .returned s1 ∧ FcfsInv v (k + 1) s1 := by
  obtain ⟨len, hlen0, hlenle, hq, harr⟩ := inv.queue hk
  obtain ⟨L0, rfl⟩ : ∃ L0, len = L0 + 1 := ⟨len - 1, by omega⟩
  rw [List.range'_succ] at hq
  obtain ⟨p, hvp⟩ : ∃ p, v[k]? = some p := ⟨v[k], List.getElem?_eq_getElem hk⟩
  have hp : s._processes[k]? = some p := by rw [inv.untouched k (le_refl _)]; exact hvp
  obtain ⟨hrem, hpos, hle⟩ := hfresh p (List.getElem?_mem hvp)
  have htime := inv.time p hvp
  have hcpk : k < s.completed_process.length := by rw [inv.cpLen]; exact hk
  have hiter := iteration_first_dispatch quantum s k _ p hq hp hrem hle hcpk
  have hps1len : (s._processes.set k
      { p with _response_time := some (s.current_time - p._arrival_time),
               _remaining_time := 0,
               _turnaround_time := s.current_time + p._burst_time - p._arrival_time }).length =
      v.length := by rw [List.length_set]; exact inv.len
  have hcp1 : ∀ i, i < v.length →
      (s.completed_process.set k 1)[i]? = some (if i < k + 1 then 1 else 0) := by
    intro i hi
    by_cases hik : k = i
    · subst hik
      rw [List.getElem?_set_self hcpk]
      simp
    · rw [List.getElem?_set_ne hik, inv.cp i hi]
      by_cases hlt : i < k
      · have : i < k + 1 := by omega
        simp [hlt, this]
      · have : ¬ i < k + 1 := by omega
        simp [hlt, this]
  have hun1 : ∀ i, k + 1 ≤ i →
      (s._processes.set k
        { p with _response_time := some (s.current_time - p._arrival_time),
                 _remaining_time := 0,
                 _turnaround_time := s.current_time + p._burst_time - p._arrival_time })[i]? =
      v[i]? := by
    intro i hi
    rw [List.getElem?_set_ne (by omega)]
    exact inv.untouched i (by omega)
  obtain ⟨L, hadm, hL, hmem, hall⟩ := admission_sorted v _ _ k
    (s.current_time + p._burst_time) hps1len hcp1 hun1 hsorted
    (fun r hr => ⟨(hfresh r hr).1, (hfresh r hr).2.1⟩) L0 (by omega)
    (fun i r h1 h2 h3 => by have := harr i r (by omega) (by omega) h3; omega)
  rw [hadm] at hiter
  have hfin := finish_take_succ v k p hvp
  have hbase : ∀ (q3 : List Nat) (t3 : Int),
      (k + 1 < v.length → ∃ len, 0 < len ∧ k + 1 + len ≤ v.length ∧
        q3 = List.range' (k + 1) len ∧
        ∀ (i : Nat) (r : Process), k + 1 ≤ i → i < k + 1 + len → v[i]? = some r →
          r._arrival_time ≤ t3) →
      (∀ r, v[k + 1]? = some r →
        t3 = max r._arrival_time (FCFS.finish 0 (v.take (k + 1)))) →
      FcfsInv v (k + 1)
        { _processes := s._processes.set k
            { p with _response_time := some (s.current_time - p._arrival_time),
                     _remaining_time := 0,
                     _turnaround_time := s.current_time + p._burst_time - p._arrival_time },
          ready_queue := q3, current_time := t3, completed := s.completed + 1,
          completed_process := s.completed_process.set k 1 } := by
    intro q3 t3 hqueue htime3
    refine ⟨hps1len, by rw [List.length_set]; exact inv.cpLen, hcp1,
      by rw [inv.completed], ?_, hun1, hqueue, htime3⟩
    intro i r hi hr
    simp only at hr
    by_cases hik : i = k
    · subst hik
      rw [List.getElem?_set_self (by rw [inv.len]; exact hk)] at hr
      cases hr
      exact ⟨p, hvp, rfl, by rw [htime]⟩
    · rw [List.getElem?_set_ne (fun e => hik e.symm)] at hr
      exact inv.served i r (by omega) hr
  by_cases hL0 : L = 0
  · subst hL0
    by_cases hn : k + 1 < v.length
    · obtain ⟨r, hvr⟩ : ∃ r, v[k + 1]? = some r :=
        ⟨v[k + 1], List.getElem?_eq_getElem hn⟩
      have hfind : (List.range (s._processes.set k
          { p with _response_time := some (s.current_time - p._arrival_time),
                   _remaining_time := 0,
                   _turnaround_time :=
                     s.current_time + p._burst_time - p._arrival_time }).length).find?
          (fun i => (s.completed_process.set k 1)[i]? = some 0) = some (k + 1) := by
        apply find_first_range _ (k + 1)
        · rw [hcp1 (k + 1) hn]; simp
        · intro i hi
          rw [hcp1 i (by omega)]
          simp [hi]
        · rw [hps1len]; exact hn
      have hskip := idleSkip_first _ (s.completed_process.set k 1) (s.completed + 1)
        (s.current_time + p._burst_time) (k + 1) r
        (by rw [hps1len, inv.completed]; exact hn) hfind
        (by rw [hun1 (k + 1) (le_refl _)]; exact hvr)
      have hlate : s.current_time + p._burst_time < r._arrival_time := by
        by_contra hcon
        have := hall (k + 1) r (le_refl _) hvr (by omega)
        omega
      refine ⟨_, hiter, ?_⟩
      simp only [List.range'_zero, hskip]
      apply hbase
      · intro _
        refine ⟨1, by omega, by omega, rfl, ?_⟩
        intro i r1 h1 h2 h3
        have : i = k + 1 := by omega
        subst this
        rw [hvr] at h3
        cases h3
        exact le_refl _
      · intro r1 hr1
        rw [hvr] at hr1
        cases hr1
        rw [hfin, ← htime]
        exact (max_eq_left (by omega)).symm
    · have hskip := idleSkip_all_done
        (s._processes.set k
          { p with _response_time := some (s.current_time - p._arrival_time),
                   _remaining_time := 0,
                   _turnaround_time := s.current_time + p._burst_time - p._arrival_time })
        (s.completed_process.set k 1) (s.completed + 1) (List.range' (k + 1) 0)
        (s.current_time + p._burst_time) (by rw [hps1len, inv.completed]; omega)
      refine ⟨_, hiter, ?_⟩
      simp only [hskip]
      apply hbase
      · intro h; omega
      · intro r1 hr1
        have := (List.getElem?_eq_some.mp hr1).1
        omega
  · have hskip := idleSkip_nonempty
      (s._processes.set k
        { p with _response_time := some (s.current_time - p._arrival_time),
                 _remaining_time := 0,
                 _turnaround_time := s.current_time + p._burst_time - p._arrival_time })
      (s.completed_process.set k 1) (s.completed + 1) (List.range' (k + 1) L)
      (s.current_time + p._burst_time)
      (by
        obtain ⟨L1, rfl⟩ : ∃ L1, L = L1 + 1 := ⟨L - 1, by omega⟩
        rw [List.range'_succ]
        exact List.cons_ne_nil _ _)
    refine ⟨_, hiter, ?_⟩
    simp only [hskip]
    apply hbase
    · intro _
      exact ⟨L, by omega, hL, rfl, hmem⟩
    · intro r1 hr1
      have := hmem (k + 1) r1 (le_refl _) (by omega) hr1
      rw [hfin, ← htime]
      exact (max_eq_right this).symm

theorem fcfs_loop (quantum : Int) (v : List Process)
    (hsorted : v.Pairwise (fun a b => a._arrival_time ≤ b._arrival_time))
    (hfresh : ∀ r ∈ v, r._remaining_time = r._burst_time ∧ 0 < r._burst_time ∧
      r._burst_time ≤ quantum) :
    ∀ (m k : Nat) (s : State), FcfsInv v k s → k + m = v.length →
      ∃ s1, loop quantum (m + 1) s = .returned s1 ∧ FcfsInv v v.length s1 := by
  intro m
  induction m with
  | zero =>
    intro k s inv hk
    have hkn : k = v.length := by omega
    subst hkn
    refine ⟨s, ?_, inv⟩
    simp [loop, inv.completed, inv.len]
  | succ m ih =>
    intro k s inv hk
    obtain ⟨s1, hiter, inv1⟩ := fcfs_step quantum v hsorted hfresh k s inv (by omega)
    obtain ⟨s2, hloop, inv2⟩ := ih (k + 1) s1 inv1 (by omega)
    refine ⟨s2, ?_, inv2⟩
    have hlt : s.completed < s._processes.length := by
      rw [inv.completed, inv.len]; omega
    simp only [loop, hlt, if_true, hiter, Outcome.andThen]
    exact hloop

theorem serve_lookup :
    ∀ (l : List Process) (c : Int) (offset i : Nat) (r : Process),
      (∀ (j : Nat) (x : Process), l[j]? = some x → x._pid = ((offset + j : Nat) : Int)) →
      l[i]? = some r →
      (FCFS.serve c l).lookup ((offset + i : Nat) : Int) =
        some (max r._arrival_time (FCFS.finish c (l.take i)) - r._arrival_time) := by
  intro l
  induction l with
  | nil => intro c offset i r _ h; simp at h
  | cons x xs ih =>
    intro c offset i r hpid hr
    have hx : x._pid = ((offset : Nat) : Int) := by
      have := hpid 0 x (List.getElem?_cons_zero ..)
      simpa using this
    cases i with
    | zero =>
      simp only [List.getElem?_cons_zero, Option.some.injEq] at hr
      subst hr
      simp only [FCFS.serve, hx, Nat.add_zero, List.lookup_cons, beq_self_eq_true,
        List.take_zero, FCFS.finish]
    | succ j =>
      simp only [List.getElem?_cons_succ] at hr
      have hne : (((offset + (j + 1) : Nat) : Int) == x._pid) = false := by
        rw [hx]
        simp only [beq_eq_false_iff_ne, ne_eq, Nat.cast_inj]
        omega
      simp only [FCFS.serve, List.lookup_cons, hne, List.take_succ_cons, FCFS.finish]
      have := ih (max x._arrival_time c + x._burst_time) (offset + 1) j r
        (fun j1 x1 h1 => by
          have := hpid (j1 + 1) x1 (by simpa using h1)
          rw [this]
          congr 1
          omega) hr
      rw [show offset + (j + 1) = offset + 1 + j by omega]
      exact this

theorem serve_map_reset :
    ∀ (l : List Process) (c : Int),
      FCFS.serve c (l.map (fun p => { p with _remaining_time := p._burst_time })) =
        FCFS.serve c l := by
  intro l
  induction l with
  | nil => intro c; rfl
  | cons x xs ih =>
    intro c
    simp only [List.map_cons, FCFS.serve, ih]

theorem order_eq_of_sorted (ps : List Process)
    (hpid : ∀ (i : Nat) (r : Process), ps[i]? = some r → r._pid = (i : Int))
    (hsorted : ps.Pairwise (fun a b => a._arrival_time ≤ b._arrival_time)) :
    FCFS.order ps = ps := by
  apply List.Sorted.insertionSort_eq
  rw [List.Sorted, List.pairwise_iff_getElem]
  intro i j hi hj hij
  have h1 := List.pairwise_iff_getElem.mp hsorted i j hi hj hij
  have h2 := hpid i _ (List.getElem?_eq_getElem hi)
  have h3 := hpid j _ (List.getElem?_eq_getElem hj)
  unfold FCFS.servedBefore
  rw [h2, h3]
  omega

/-- The invariant holds on entry to the loop when the first process arrives at
time 0. -/
theorem fcfs_init (ps : List Process) (h0 : ∀ r, ps[0]? = some r → r._arrival_time = 0) :
    FcfsInv (init ps)._processes 0 (init ps) := by
  refine ⟨rfl, by simp [init], ?_, rfl, ?_, fun _ _ => rfl, ?_, ?_⟩
  · intro i hi
    simp only [init, List.length_map] at hi ⊢
    rw [List.getElem?_replicate_of_lt hi]
    simp
  · intro i r hi
    omega
  · intro _
    refine ⟨1, by omega, by omega, rfl, ?_⟩
    intro i r h1 h2 h3
    have hi : i = 0 := by omega
    subst hi
    simp only [init, List.getElem?_map, Option.map_eq_some'] at h3
    obtain ⟨a, ha, rfl⟩ := h3
    have := h0 a ha
    simp only [init]
    omega
  · intro r hr
    simp only [init, List.getElem?_map, Option.map_eq_some'] at hr
    obtain ⟨a, ha, rfl⟩ := hr
    have := h0 a ha
    simp only [init, List.take_zero, FCFS.finish, this, max_self]

/-- First-Come-First-Served completes a list of processes no later than the
latest of the start time and the arrival times, plus the total burst time. -/
theorem finish_le :
    ∀ (l : List Process) (A c : Int), c ≤ A →
      (∀ p ∈ l, p._arrival_time ≤ A ∧ 0 ≤ p._burst_time) →
      FCFS.finish c l ≤ A + (l.map (fun q => q._burst_time)).sum := by
  intro l
  induction l with
  | nil => intro A c hc _; simpa [FCFS.finish] using hc
  | cons x xs ih =>
    intro A c hc h
    obtain ⟨hx1, hx2⟩ := h x (List.mem_cons_self _ _)
    have hmax : max x._arrival_time c ≤ A := max_le hx1 hc
    have hfin := ih (A + x._burst_time) (max x._arrival_time c + x._burst_time) (by omega)
      (fun p hp => by
        obtain ⟨h1, h2⟩ := h p (List.mem_cons_of_mem _ hp)
        exact ⟨by omega, h2⟩)
    simp only [FCFS.finish, List.map_cons, List.sum_cons]
    omega

theorem sum_burst_take_le (v : List Process) (i : Nat) (h : ∀ p ∈ v, 0 ≤ p._burst_time) :
    ((v.take i).map (fun q => q._burst_time)).sum ≤ (v.map (fun q => q._burst_time)).sum := by
  have hdrop : 0 ≤ ((v.drop i).map (fun q => q._burst_time)).sum := by
    apply List.sum_nonneg
    intro x hx
    obtain ⟨r, hr, rfl⟩ := List.mem_map.mp hx
    exact h r (List.mem_of_mem_drop hr)
  have hsplit : (v.map (fun q => q._burst_time)).sum =
      ((v.take i).map (fun q => q._burst_time)).sum +
        ((v.drop i).map (fun q => q._burst_time)).sum := by
    rw [← List.sum_append, ← List.map_append, List.take_append_drop]
  omega

/-- Claim C5, amended. For a workload stored in ascending arrival order (pid `i`
at index `i`) whose process 0 arrives at time 0, with positive burst times, a
quantum that no burst time exceeds, and a latest arrival time plus total burst
time of at most `INT_MAX` (no value of the clock leaves the range of `int`),
`RRScheduler::schedule` returns (for every fuel of at least `n + 1`
iterations), and the response time it gives each process is that process's
waiting time under First-Come-First-Served, a value between 0 and `INT_MAX`. -/
theorem C5_fcfs_when_stored_in_arrival_order (ps : List Process) (quantum : Int)
    (hpid : ∀ (i : Nat) (r : Process), ps[i]? = some r → r._pid = (i : Int))
    (hsorted : ps.Pairwise (fun a b => a._arrival_time ≤ b._arrival_time))
    (h0 : ∀ r, ps[0]? = some r → r._arrival_time = 0)
    (hburst : ∀ r ∈ ps, 0 < r._burst_time ∧ r._burst_time ≤ quantum)
    (hbound : ∀ p ∈ ps, p._arrival_time + (ps.map (fun q => q._burst_time)).sum ≤ INT_MAX)
    (extra : Nat) :
    ∃ out, schedule (ps.length + 1 + extra) ps quantum = .returned out ∧
      out.length = ps.length ∧
      ∀ (i : Nat) (r : Process), out[i]? = some r →
        r._pid = (i : Int) ∧
        ∃ w, FCFS.waiting ps r._pid = some w ∧ r._response_time = some w ∧
          0 ≤ w ∧ w ≤ INT_MAX := by
  have hvsorted : (init ps)._processes.Pairwise
      (fun a b => a._arrival_time ≤ b._arrival_time) := by
    simp only [init]
    rw [List.pairwise_map]
    exact hsorted
  have hvfresh : ∀ r ∈ (init ps)._processes,
      r._remaining_time = r._burst_time ∧ 0 < r._burst_time ∧ r._burst_time ≤ quantum := by
    intro r hr
    simp only [init, List.mem_map] at hr
    obtain ⟨a, ha, rfl⟩ := hr
    exact ⟨rfl, hburst a ha⟩
  have hvpid : ∀ (j : Nat) (x : Process), (init ps)._processes[j]? = some x →
      x._pid = ((0 + j : Nat) : Int) := by
    intro j x hx
    simp only [init, List.getElem?_map, Option.map_eq_some'] at hx
    obtain ⟨a, ha, rfl⟩ := hx
    rw [Nat.zero_add]
    exact hpid j a ha
  have hvlen : (init ps)._processes.length = ps.length := by simp [init]
  have hvsum : ((init ps)._processes.map (fun q => q._burst_time)).sum =
      (ps.map (fun q => q._burst_time)).sum := by
    simp only [init, List.map_map]
    rfl
  have harr : ∀ p ∈ ps, 0 ≤ p._arrival_time := by
    cases ps with
    | nil => intro p hp; simp at hp
    | cons x xs =>
      have hx : x._arrival_time = 0 := h0 x (List.getElem?_cons_zero ..)
      intro p hp
      rcases List.mem_cons.mp hp with rfl | hp
      · omega
      · have := (List.pairwise_cons.mp hsorted).1 p hp
        omega
  have hvarr : ∀ r ∈ (init ps)._processes, 0 ≤ r._arrival_time := by
    intro r hr
    simp only [init, List.mem_map] at hr
    obtain ⟨a, ha, rfl⟩ := hr
    exact harr a ha
  have hvbound : ∀ r ∈ (init ps)._processes,
      r._arrival_time + ((init ps)._processes.map (fun q => q._burst_time)).sum ≤ INT_MAX := by
    intro r hr
    rw [hvsum]
    simp only [init, List.mem_map] at hr
    obtain ⟨a, ha, rfl⟩ := hr
    exact hbound a ha
  have hA0 : 0 ≤ INT_MAX - ((init ps)._processes.map (fun q => q._burst_time)).sum := by
    rw [hvsum]
    cases ps with
    | nil => simp [INT_MAX]
    | cons x xs =>
      have h1 := hbound x (List.mem_cons_self _ _)
      have h2 := harr x (List.mem_cons_self _ _)
      omega
  obtain ⟨s1, hloop, inv⟩ := fcfs_loop quantum _ hvsorted hvfresh (init ps)._processes.length 0
    (init ps) (fcfs_init ps h0) (by omega)
  rw [hvlen] at hloop
  refine ⟨s1._processes, ?_, by rw [inv.len, hvlen], ?_⟩
  · apply rr_schedule_fuel_add
    simp only [schedule, hloop, Outcome.mapReturned, Outcome.andThen]
  · intro i r hr
    have hi : i < (init ps)._processes.length := by
      rw [← inv.len]; exact (List.getElem?_eq_some.mp hr).1
    obtain ⟨o, ho, hop, hresp⟩ := inv.served i r hi hr
    have hoi := hvpid i o ho
    rw [Nat.zero_add] at hoi
    have hfin : FCFS.finish 0 ((init ps)._processes.take i) ≤ INT_MAX := by
      have h1 := finish_le ((init ps)._processes.take i)
        (INT_MAX - ((init ps)._processes.map (fun q => q._burst_time)).sum) 0 hA0
        (fun q hq => by
          have hq1 := List.mem_of_mem_take hq
          have := hvbound q hq1
          have := (hvfresh q hq1).2.1
          exact ⟨by omega, by omega⟩)
      have h2 := sum_burst_take_le (init ps)._processes i
        (fun q hq => le_of_lt (hvfresh q hq).2.1)
      omega
    have hoarr : 0 ≤ o._arrival_time := hvarr o (List.getElem?_mem ho)
    have hobound := hvbound o (List.getElem?_mem ho)
    have hosum : 0 ≤ ((init ps)._processes.map (fun q => q._burst_time)).sum := by
      apply List.sum_nonneg
      intro x hx
      obtain ⟨q, hq, rfl⟩ := List.mem_map.mp hx
      exact le_of_lt (hvfresh q hq).2.1
    refine ⟨by rw [hop, hoi], _, ?_, hresp, ?_, ?_⟩
    · have hlook := serve_lookup _ 0 0 i o hvpid ho
      rw [Nat.zero_add] at hlook
      unfold FCFS.waiting
      rw [order_eq_of_sorted ps hpid hsorted, hop, hoi, ← hlook]
      simp only [init]
      rw [serve_map_reset]
    · have := le_max_left o._arrival_time (FCFS.finish 0 ((init ps)._processes.take i))
      omega
    · have : max o._arrival_time (FCFS.finish 0 ((init ps)._processes.take i)) ≤ INT_MAX :=
        max_le (by omega) hfin
      omega

/-- Instance of C5 as amended: three processes stored in arrival order, the
second arriving while the first runs and the third after an idle gap. -/
theorem C5_fcfs_when_stored_in_arrival_order_witness :
    ∃ out, schedule ([Process.new 0 0 4, Process.new 1 2 3, Process.new 2 9 1].length + 1 + 0)
        [Process.new 0 0 4, Process.new 1 2 3, Process.new 2 9 1] 4 = .returned out ∧
      out.length = [Process.new 0 0 4, Process.new 1 2 3, Process.new 2 9 1].length ∧
      ∀ (i : Nat) (r : Process), out[i]? = some r →
        r._pid = (i : Int) ∧
        ∃ w, FCFS.waiting [Process.new 0 0 4, Process.new 1 2 3, Process.new 2 9 1] r._pid =
            some w ∧ r._response_time = some w ∧ 0 ≤ w ∧ w ≤ INT_MAX :=
  C5_fcfs_when_stored_in_arrival_order
    [Process.new 0 0 4, Process.new 1 2 3, Process.new 2 9 1] 4
    (by
      intro i r h
      have hlt : i < 3 := by
        obtain ⟨hi, _⟩ := List.getElem?_eq_some.mp h
        simpa using hi
      interval_cases i <;> simp [Process.new] at h <;> subst h <;> rfl)
    (by decide)
    (by intro r h; simp [Process.new] at h; subst h; rfl)
    (by decide) (by decide) 0

/-- C5 as stated is false: with quantum 10 on `[(0,0,10), (1,5,1), (2,3,1)]`
(pid, arrival, burst; the quantum is the largest burst time) the run gives
process 1 the response time 5 and process 2 the response time 8, while under
First-Come-First-Served process 2, which arrives first, waits 7 and process 1
waits 6. -/
theorem C5_counterexample :
    (schedule 4 [Process.new 0 0 10, Process.new 1 5 1, Process.new 2 3 1] 10).mapReturned
        (fun out => out.map (fun p => (p._pid, p._response_time))) =
      .returned [(0, some 0), (1, some 5), (2, some 8)] ∧
    [0, 1, 2].map (FCFS.waiting [Process.new 0 0 10, Process.new 1 5 1, Process.new 2 3 1]) =
      [some 0, some 6, some 7] := by
  decide

end RRScheduler

namespace RRScheduler

/-! ## Round Robin: runs on particular workloads -/

/-- C11 (no process is first dispatched before its arrival) fails on the
workload of one process `(0, 5, 2)` (pid, arrival, burst) with quantum 3: the
process is dispatched at clock 0, five ticks before it arrives, and the run
returns with response time -5 (and turnaround time -3). -/
theorem C11_seed_dispatched_before_arrival (k : Nat) :
    (schedule (2 + k) [Process.new 0 5 2] 3).mapReturned
      (fun ps => ps.map (fun p => (p._arrival_time, p._response_time, p._turnaround_time))) =
      .returned [(5, some (-5), -3)] := by
  rw [rr_schedule_fuel_add 2 k _ _ 3 (by decide :
    schedule 2 [Process.new 0 5 2] 3 = .returned
      [{ Process.new 0 5 2 with
         _remaining_time := 0, _turnaround_time := -3, _response_time := some (-5) }])]
  decide

/-- C13 as stated is false: on the empty vector `RRScheduler::schedule` (here
with quantum 3) and `SRTScheduler::schedule` return normally. -/
theorem C13_counterexample :
    schedule 1 [] 3 = .returned [] ∧
      SRTScheduler.schedule SRTScheduler.listQueue 1 [] = .returned [] := by
  decide

/-- C13, amended. On the empty vector both `RRScheduler::schedule` (for every
quantum) and `SRTScheduler::schedule` return at once, without an iteration of
their loop, and leave the vector empty; no error is reported. -/
theorem C13_empty_workload_returns (quantum : Int) (Q : SRTScheduler.PQImpl) (fuel : Nat) :
    schedule (fuel + 1) [] quantum = .returned [] ∧
      SRTScheduler.schedule Q (fuel + 1) [] = .returned [] := by
  constructor
  · simp [schedule, loop, init, Outcome.mapReturned, Outcome.andThen]
  · simp [SRTScheduler.schedule, SRTScheduler.loop, SRTScheduler.init,
      SRTScheduler.sortByArrival, Outcome.mapReturned, Outcome.andThen]

/-- C15 (a preempted process is queued behind the processes that arrived during
its slice) fails on the workload of `main` with quantum 3: after the first slice
of process 0 the queue is `[0,1,2,3,0]`, and the second iteration dispatches
process 0 again, at time 3, before processes 1, 2 and 3, which arrived at times
1, 2 and 3, have been dispatched at all. -/
theorem C15_main_preempted_runs_again_first :
    ((iteration 3 (init mainWorkload)).andThen (iteration 3)).mapReturned
        (fun s => (s.current_time, s._processes.map (fun p => p._remaining_time),
          s._processes.map (fun p => p._response_time))) =
      .returned (6, [2, 4, 9, 5], [some 0, none, none, none]) := by
  decide

/-- C20 (`completed` is the number of flags set in `completed_process`) fails on
the workload of `main` with quantum 3: after the seventh iteration `completed`
is 2 while only the flag of process 0 is set. -/
theorem C20_main_counter_ahead_of_flags :
    (((((((iteration 3 (init mainWorkload)).andThen (iteration 3)).andThen
        (iteration 3)).andThen (iteration 3)).andThen (iteration 3)).andThen
        (iteration 3)).andThen (iteration 3)).mapReturned
        (fun s => (s.completed, s.completed_process)) =
      .returned (2, [1, 0, 0, 0]) := by
  decide

/-! ## Round Robin: one iteration -/

theorem iteration_empty_queue (quantum : Int) (s : State) (hq : s.ready_queue = []) :
    iteration quantum s = .returned s := by
  simp only [iteration, hq]

/-- What an iteration that dispatches index `pid` does: the record is replaced
by one with the slice `min quantum remaining` taken off its remaining time (burst,
arrival and pid unchanged); when nothing remains the flag is set and `completed`
incremented; the queue and the clock are those of the idle skip applied to the
queue after admission and re-queueing. -/
theorem iteration_facts (quantum : Int) (s : State) (pid : Nat) (rest : List Nat)
    (p : Process) (hq : s.ready_queue = pid :: rest) (hp : s._processes[pid]? = some p) :
    ∃ s1, iteration quantum s = .returned s1 ∧
      ∃ p3 : Process, s1._processes = s._processes.set pid p3 ∧
        p3._remaining_time = p._remaining_time - min quantum p._remaining_time ∧
        p3._burst_time = p._burst_time ∧ p3._arrival_time = p._arrival_time ∧
        p3._pid = p._pid ∧
        (p3._remaining_time = 0 →
          s1.completed_process = s.completed_process.set pid 1 ∧
          s1.completed = s.completed + 1) ∧
        (p3._remaining_time ≠ 0 →
          s1.completed_process = s.completed_process ∧ s1.completed = s.completed) ∧
        (s1.ready_queue, s1.current_time) =
          idleSkip s1._processes s1.completed_process s1.completed
            (admission s1._processes s1.completed_process
                (s.current_time + min quantum p._remaining_time) rest ++
              (if s1.completed_process[pid]? = some 0 then [pid] else []))
            (s.current_time + min quantum p._remaining_time) := by
  have happ : ∀ (c : Prop) [Decidable c] (q1 : List Nat),
      (if c then q1 ++ [pid] else q1) = q1 ++ (if c then [pid] else []) := by
    intro c _ q1
    split_ifs <;> simp
  obtain ⟨p1, hp1, h1, h2, h3, h4⟩ : ∃ p1 : Process,
      (if p._remaining_time = p._burst_time then
          { p with _response_time := some (s.current_time - p._arrival_time) }
        else p) = p1 ∧
      p1._remaining_time = p._remaining_time ∧ p1._burst_time = p._burst_time ∧
      p1._arrival_time = p._arrival_time ∧ p1._pid = p._pid :=
    ⟨_, rfl, by split_ifs <;> rfl, by split_ifs <;> rfl, by split_ifs <;> rfl,
      by split_ifs <;> rfl⟩
  rw [← h1]
  by_cases hdone : p1._remaining_time - min quantum p1._remaining_time = 0
  · refine ⟨_, by simp only [iteration, hq, hp, hp1, hdone, decide_True, if_true, happ]; rfl,
      ?_⟩
    exact ⟨_, rfl, hdone.symm, h2, h3, h4, fun _ => ⟨rfl, rfl⟩, fun h => absurd rfl h, rfl⟩
  · refine ⟨_, by
      simp only [iteration, hq, hp, hp1, hdone, decide_False, if_false, Bool.false_eq_true,
        happ]; rfl, ?_⟩
    exact ⟨_, rfl, rfl, h2, h3, h4, fun h => absurd h hdone, fun _ => ⟨rfl, rfl⟩, rfl⟩

theorem admitOne_cases (ps : List Process) (cp : List Nat) (t : Int) (q : List Nat) (i : Nat) :
    admitOne ps cp t q i = q ∨ admitOne ps cp t q i = q ++ [i] := by
  unfold admitOne
  split
  · split_ifs <;> simp
  · exact Or.inl rfl

theorem admitOne_mem (ps : List Process) (cp : List Nat) (t : Int) (q : List Nat) (i : Nat)
    (r : Process) (hcp : cp[i]? = some 0) (hr : ps[i]? = some r)
    (harr : r._arrival_time ≤ t) (hrem : 0 < r._remaining_time) :
    i ∈ admitOne ps cp t q i := by
  have hrem1 : r._remaining_time > 0 := hrem
  simp only [admitOne, hcp, hr, harr, hrem1, and_self, if_true, already_in_queue_eq]
  by_cases h : i ∈ q
  · simp [h]
  · simp [h]

theorem foldl_admitOne (ps : List Process) (cp : List Nat) (t : Int) :
    ∀ (l : List Nat) (q : List Nat),
      (∀ x ∈ q, x ∈ l.foldl (admitOne ps cp t) q) ∧
      (∀ x ∈ l.foldl (admitOne ps cp t) q, x ∈ q ∨ x ∈ l) ∧
      (∀ (i : Nat) (r : Process), i ∈ l → cp[i]? = some 0 → ps[i]? = some r →
        r._arrival_time ≤ t → 0 < r._remaining_time →
        i ∈ l.foldl (admitOne ps cp t) q) := by
  intro l
  induction l with
  | nil =>
    intro q
    exact ⟨fun x hx => hx, fun x hx => Or.inl hx, fun i r hi => by simp at hi⟩
  | cons a l ih =>
    intro q
    obtain ⟨ih1, ih2, ih3⟩ := ih (admitOne ps cp t q a)
    simp only [List.foldl_cons]
    have hsub : ∀ x ∈ q, x ∈ admitOne ps cp t q a := by
      intro x hx
      rcases admitOne_cases ps cp t q a with h | h <;> rw [h]
      · exact hx
      · exact List.mem_append_left _ hx
    refine ⟨fun x hx => ih1 x (hsub x hx), ?_, ?_⟩
    · intro x hx
      rcases ih2 x hx with h | h
      · rcases admitOne_cases ps cp t q a with e | e <;> rw [e] at h
        · exact Or.inl h
        · rcases List.mem_append.mp h with h | h
          · exact Or.inl h
          · simp only [List.mem_singleton] at h
            exact Or.inr (h ▸ List.mem_cons_self _ _)
      · exact Or.inr (List.mem_cons_of_mem _ h)
    · intro i r hi hcp hr harr hrem
      rcases List.mem_cons.mp hi with rfl | hi
      · exact ih1 i (admitOne_mem ps cp t q i r hcp hr harr hrem)
      · exact ih3 i r hi hcp hr harr hrem

/-- The queue after the admission loop holds the entries it held before. -/
theorem admission_subset (ps : List Process) (cp : List Nat) (t : Int) (q : List Nat) :
    ∀ x ∈ q, x ∈ admission ps cp t q :=
  (foldl_admitOne ps cp t _ q).1

/-- The admission loop pushes indices of the vector only. -/
theorem admission_bound (ps : List Process) (cp : List Nat) (t : Int) (q : List Nat) :
    ∀ x ∈ admission ps cp t q, x ∈ q ∨ x < ps.length := by
  intro x hx
  rcases (foldl_admitOne ps cp t _ q).2.1 x hx with h | h
  · exact Or.inl h
  · exact Or.inr (List.mem_range.mp h)

/-- After the admission loop every index that is not flagged, has arrived and
has work left is in the queue. -/
theorem admission_complete (ps : List Process) (cp : List Nat) (t : Int) (q : List Nat)
    (i : Nat) (r : Process) (hcp : cp[i]? = some 0) (hr : ps[i]? = some r)
    (harr : r._arrival_time ≤ t) (hrem : 0 < r._remaining_time) :
    i ∈ admission ps cp t q :=
  (foldl_admitOne ps cp t _ q).2.2 i r
    (List.mem_range.mpr (List.getElem?_eq_some.mp hr).1) hcp hr harr hrem

/-- The idle skip either leaves the queue and the clock as they are, or (on an
empty queue with `completed < n`) queues an index whose flag is 0 and sets the
clock to its arrival time. -/
theorem idleSkip_cases (ps : List Process) (cp : List Nat) (c : Nat) (q : List Nat) (t : Int) :
    idleSkip ps cp c q t = (q, t) ∨
      (q = [] ∧ c < ps.length ∧ ∃ (m : Nat) (r : Process), cp[m]? = some 0 ∧
        ps[m]? = some r ∧ idleSkip ps cp c q t = ([m], r._arrival_time)) := by
  by_cases hq : q = []
  · subst hq
    by_cases hc : c < ps.length
    · cases hfind : (List.range ps.length).find? (fun i => cp[i]? = some 0) with
      | none => left; simp [idleSkip, hc, hfind]
      | some m =>
        have hm := List.find?_some hfind
        simp only [decide_eq_true_eq] at hm
        cases hr : ps[m]? with
        | none => left; simp [idleSkip, hc, hfind, hr]
        | some r =>
          right
          exact ⟨rfl, hc, m, r, hm, hr, idleSkip_first ps cp c t m r hc hfind hr⟩
    · exact Or.inl (idleSkip_all_done ps cp c [] t hc)
  · exact Or.inl (idleSkip_nonempty ps cp c q t hq)

/-- The idle skip leaves a queue that is not empty when `completed < n` and
some flag is 0. -/
theorem idleSkip_queue_ne_nil (ps : List Process) (cp : List Nat) (c : Nat) (q : List Nat)
    (t : Int) (hc : c < ps.length) (i : Nat) (hi : i < ps.length) (hcp : cp[i]? = some 0) :
    (idleSkip ps cp c q t).1 ≠ [] := by
  by_cases hq : q = []
  · subst hq
    cases hfind : (List.range ps.length).find? (fun i => cp[i]? = some 0) with
    | none =>
      rw [List.find?_eq_none] at hfind
      have := hfind i (List.mem_range.mpr hi)
      simp [hcp] at this
    | some m =>
      have hm := List.mem_range.mp (List.mem_of_find?_eq_some hfind)
      rw [idleSkip_first ps cp c t m ps[m] hc hfind (List.getElem?_eq_getElem hm)]
      simp
  · rw [idleSkip_nonempty ps cp c q t hq]
    exact hq

theorem exists_flag_zero :
    ∀ (cp : List Nat), (∀ c ∈ cp, c ≤ 1) → cp.sum < cp.length →
      ∃ i, i < cp.length ∧ cp[i]? = some 0 := by
  intro cp
  induction cp with
  | nil => intro _ h; simp at h
  | cons a l ih =>
    intro hbit hsum
    simp only [List.sum_cons, List.length_cons] at hsum
    have ha := hbit a (List.mem_cons_self _ _)
    by_cases h0 : a = 0
    · exact ⟨0, by simp, by simp [h0]⟩
    · obtain ⟨i, hi, hcp⟩ := ih (fun c hc => hbit c (List.mem_cons_of_mem _ hc)) (by omega)
      exact ⟨i + 1, by simp only [List.length_cons]; omega, by simpa using hcp⟩

theorem sum_set_one_le :
    ∀ (cp : List Nat) (i : Nat), (cp.set i 1).sum ≤ cp.sum + 1 := by
  intro cp
  induction cp with
  | nil => intro i; simp
  | cons a l ih =>
    intro i
    cases i with
    | zero => simp only [List.set_cons_zero, List.sum_cons]; omega
    | succ j =>
      have := ih j
      simp only [List.set_cons_succ, List.sum_cons]
      omega

/-- One iteration from a state that meets the loop invariant, with a positive
quantum and `completed < n`: it returns a state that meets the invariant, the
vector keeps its length, the clock does not go back, no remaining time grows
(and no burst time changes), and the termination measure decreases. -/
theorem LoopInv.step (quantum : Int) (hquantum : 0 < quantum) (s : State) (inv : LoopInv s)
    (hc : s.completed < s._processes.length) :
    ∃ s1, iteration quantum s = .returned s1 ∧ LoopInv s1 ∧
      s1._processes.length = s._processes.length ∧
      s.current_time ≤ s1.current_time ∧
      (∀ (i : Nat) (r r1 : Process), s._processes[i]? = some r → s1._processes[i]? = some r1 →
        r1._remaining_time ≤ r._remaining_time ∧ r1._burst_time = r._burst_time) ∧
      measure s1 < measure s := by
  obtain ⟨pid, rest, hq⟩ : ∃ pid rest, s.ready_queue = pid :: rest := by
    cases hrq : s.ready_queue with
    | nil => exact absurd hrq (inv.nonempty hc)
    | cons a l => exact ⟨a, l, rfl⟩
  have hpid : pid < s._processes.length := inv.queueBound pid (by rw [hq]; simp)
  have hp : s._processes[pid]? = some s._processes[pid] := List.getElem?_eq_getElem hpid
  obtain ⟨s1, hiter, p3, hps, hrem3, hb3, _, _, hdone, hnot, hqt⟩ :=
    iteration_facts quantum s pid rest _ hq hp
  obtain ⟨hp0, hpb⟩ := inv.remBounds _ (List.getElem?_mem hp)
  have hslice0 : 0 ≤ min quantum s._processes[pid]._remaining_time := le_min (by omega) hp0
  have hsliceLe : min quantum s._processes[pid]._remaining_time ≤
      s._processes[pid]._remaining_time := min_le_right _ _
  have hslicePos : 0 < s._processes[pid]._remaining_time →
      0 < min quantum s._processes[pid]._remaining_time := fun h => lt_min hquantum h
  have hlen : s1._processes.length = s._processes.length := by
    rw [hps, List.length_set]
  have hcpLen : s1.completed_process.length = s1._processes.length := by
    by_cases hd : p3._remaining_time = 0
    · rw [(hdone hd).1, List.length_set, hlen]; exact inv.cpLen
    · rw [(hnot hd).1, hlen]; exact inv.cpLen
  have hcpBit : ∀ c ∈ s1.completed_process, c ≤ 1 := by
    by_cases hd : p3._remaining_time = 0
    · rw [(hdone hd).1]
      intro c hc
      rcases List.mem_or_eq_of_mem_set hc with h | h
      · exact inv.cpBit c h
      · omega
    · rw [(hnot hd).1]; exact inv.cpBit
  have hcounted : s1.completed_process.sum ≤ s1.completed := by
    by_cases hd : p3._remaining_time = 0
    · rw [(hdone hd).1, (hdone hd).2]
      have := sum_set_one_le s.completed_process pid
      have := inv.counted
      omega
    · rw [(hnot hd).1, (hnot hd).2]; exact inv.counted
  have hcompleted : s.completed ≤ s1.completed := by
    by_cases hd : p3._remaining_time = 0
    · rw [(hdone hd).2]; omega
    · rw [(hnot hd).2]
  have hnotDone : ∀ (i : Nat) (r : Process), s1.completed_process[i]? = some 0 →
      s1._processes[i]? = some r → 0 < r._remaining_time := by
    intro i r hcp hr
    by_cases hi : pid = i
    · subst hi
      rw [hps, List.getElem?_set_self hpid] at hr
      cases hr
      by_cases hd : p3._remaining_time = 0
      · rw [(hdone hd).1, List.getElem?_set_self (by rw [inv.cpLen]; exact hpid)] at hcp
        simp at hcp
      · omega
    · rw [hps, List.getElem?_set_ne hi] at hr
      have hcp0 : s.completed_process[i]? = some 0 := by
        by_cases hd : p3._remaining_time = 0
        · rw [(hdone hd).1, List.getElem?_set_ne hi] at hcp; exact hcp
        · rw [(hnot hd).1] at hcp; exact hcp
      exact inv.notDone i r hcp0 hr
  have hqueue : s1.ready_queue = (idleSkip s1._processes s1.completed_process s1.completed
      (admission s1._processes s1.completed_process
          (s.current_time + min quantum s._processes[pid]._remaining_time) rest ++
        (if s1.completed_process[pid]? = some 0 then [pid] else []))
      (s.current_time + min quantum s._processes[pid]._remaining_time)).1 :=
    congrArg Prod.fst hqt
  have htime : s1.current_time = (idleSkip s1._processes s1.completed_process s1.completed
      (admission s1._processes s1.completed_process
          (s.current_time + min quantum s._processes[pid]._remaining_time) rest ++
        (if s1.completed_process[pid]? = some 0 then [pid] else []))
      (s.current_time + min quantum s._processes[pid]._remaining_time)).2 :=
    congrArg Prod.snd hqt
  have hq2bound : ∀ x ∈ admission s1._processes s1.completed_process
          (s.current_time + min quantum s._processes[pid]._remaining_time) rest ++
        (if s1.completed_process[pid]? = some 0 then [pid] else []),
      x < s1._processes.length := by
    intro x hx
    rw [hlen]
    rcases List.mem_append.mp hx with h | h
    · rcases admission_bound _ _ _ _ x h with h1 | h1
      · exact inv.queueBound x (by rw [hq]; exact List.mem_cons_of_mem _ h1)
      · rw [← hlen]; exact h1
    · split_ifs at h
      · simp only [List.mem_singleton] at h
        rw [h]; exact hpid
      · simp at h
  refine ⟨s1, hiter, ⟨hcpLen, hcpBit, ?_, ?_, hnotDone, hcounted, ?_⟩, hlen, ?_, ?_, ?_⟩
  · intro i hi
    rw [hqueue] at hi
    rcases idleSkip_cases s1._processes s1.completed_process s1.completed
      (admission s1._processes s1.completed_process
          (s.current_time + min quantum s._processes[pid]._remaining_time) rest ++
        (if s1.completed_process[pid]? = some 0 then [pid] else []))
      (s.current_time + min quantum s._processes[pid]._remaining_time) with h | h
    · rw [h] at hi
      exact hq2bound i hi
    · obtain ⟨_, _, m, r, _, hr, h⟩ := h
      rw [h] at hi
      simp only [List.mem_singleton] at hi
      rw [hi]
      exact (List.getElem?_eq_some.mp hr).1
  · intro r hr
    rw [hps] at hr
    rcases List.mem_or_eq_of_mem_set hr with h | h
    · exact inv.remBounds r h
    · rw [h]
      constructor <;> omega
  · intro hc1
    rw [hqueue]
    obtain ⟨i, hi, hcp⟩ := exists_flag_zero s1.completed_process hcpBit
      (by rw [hcpLen]; omega)
    exact idleSkip_queue_ne_nil _ _ _ _ _ hc1 i (by rw [← hcpLen]; exact hi) hcp
  · rw [htime]
    rcases idleSkip_cases s1._processes s1.completed_process s1.completed
      (admission s1._processes s1.completed_process
          (s.current_time + min quantum s._processes[pid]._remaining_time) rest ++
        (if s1.completed_process[pid]? = some 0 then [pid] else []))
      (s.current_time + min quantum s._processes[pid]._remaining_time) with h | h
    · rw [h]
      show s.current_time ≤ s.current_time + _
      omega
    · obtain ⟨hnil, _, m, r, hcp, hr, h⟩ := h
      rw [h]
      show s.current_time ≤ r._arrival_time
      by_contra hlate
      have hmem := admission_complete s1._processes s1.completed_process
        (s.current_time + min quantum s._processes[pid]._remaining_time) rest m r hcp hr
        (by omega) (hnotDone m r hcp hr)
      have : m ∈ admission s1._processes s1.completed_process
          (s.current_time + min quantum s._processes[pid]._remaining_time) rest ++
        (if s1.completed_process[pid]? = some 0 then [pid] else []) :=
        List.mem_append_left _ hmem
      rw [hnil] at this
      simp at this
  · intro i r r1 hr hr1
    by_cases hi : pid = i
    · subst hi
      rw [hps, List.getElem?_set_self hpid] at hr1
      rw [hp] at hr
      cases hr
      cases hr1
      constructor
      · omega
      · exact hb3
    · rw [hps, List.getElem?_set_ne hi, hr] at hr1
      cases hr1
      exact ⟨le_refl _, rfl⟩
  · have hsum := SRTScheduler.sum_map_set (fun r => r._remaining_time.toNat) p3
      s._processes pid _ hp
    simp only at hsum
    unfold measure
    rw [hlen, hps]
    by_cases hpos : 0 < s._processes[pid]._remaining_time
    · have := hslicePos hpos
      omega
    · have hp00 : s._processes[pid]._remaining_time = 0 := by omega
      have hd : p3._remaining_time = 0 := by omega
      rw [(hdone hd).2]
      omega

/-! ## Round Robin: the loop with a positive quantum -/

/-- The invariant holds on entry to the loop for a vector that is not empty and
has positive burst times. -/
theorem loopInv_init (ps : List Process) (hne : ps ≠ [])
    (hburst : ∀ p ∈ ps, 0 < p._burst_time) : LoopInv (init ps) := by
  have hlen : 0 < ps.length := List.length_pos.mpr hne
  refine ⟨by simp [init], ?_, ?_, ?_, ?_, ?_, ?_⟩
  · intro c hc
    simp only [init] at hc
    rw [List.eq_of_mem_replicate hc]
    omega
  · intro i hi
    simp only [init, List.mem_singleton] at hi
    simp only [init, List.length_map]
    omega
  · intro r hr
    simp only [init, List.mem_map] at hr
    obtain ⟨a, ha, rfl⟩ := hr
    have := hburst a ha
    exact ⟨by simp only; omega, le_refl _⟩
  · intro i r _ hr
    simp only [init, List.getElem?_map, Option.map_eq_some'] at hr
    obtain ⟨a, ha, rfl⟩ := hr
    exact hburst a (List.getElem?_mem ha)
  · simp [init]
  · intro _
    simp [init]

theorem reachable_loopInv (quantum : Int) (hquantum : 0 < quantum) (ps : List Process)
    (hne : ps ≠ []) (hburst : ∀ p ∈ ps, 0 < p._burst_time) (s : State)
    (hs : Reachable quantum ps s) : LoopInv s := by
  induction hs with
  | entry => exact loopInv_init ps hne hburst
  | step s s1 _ hc hiter ih =>
    obtain ⟨s2, hiter2, inv2, _⟩ := LoopInv.step quantum hquantum s ih hc
    rw [hiter] at hiter2
    cases hiter2
    exact inv2

theorem reachable_of_nil (quantum : Int) (s : State) (hs : Reachable quantum [] s) :
    s = init [] := by
  induction hs with
  | entry => rfl
  | step s s1 _ hc _ ih =>
    subst ih
    simp [init] at hc

/-- The vector keeps its length and every record its burst time during a run. -/
theorem reachable_static (quantum : Int) (ps : List Process) (s : State)
    (hs : Reachable quantum ps s) :
    s._processes.length = ps.length ∧
      ∀ (i : Nat) (r : Process), s._processes[i]? = some r →
        ∃ o, ps[i]? = some o ∧ r._burst_time = o._burst_time := by
  induction hs with
  | entry =>
    refine ⟨by simp [init], ?_⟩
    intro i r hr
    simp only [init, List.getElem?_map, Option.map_eq_some'] at hr
    obtain ⟨a, ha, rfl⟩ := hr
    exact ⟨a, ha, rfl⟩
  | step s s1 _ _ hiter ih =>
    cases hq : s.ready_queue with
    | nil =>
      rw [iteration_empty_queue quantum s hq] at hiter
      cases hiter
      exact ih
    | cons pid rest =>
      cases hp : s._processes[pid]? with
      | none => simp [iteration, hq, hp] at hiter
      | some p =>
        obtain ⟨s2, hiter2, p3, hps, _, hb3, _⟩ := iteration_facts quantum s pid rest p hq hp
        rw [hiter] at hiter2
        cases hiter2
        refine ⟨by rw [hps, List.length_set]; exact ih.1, ?_⟩
        intro i r hr
        rw [hps] at hr
        by_cases hi : pid = i
        · subst hi
          rw [List.getElem?_set_self (List.getElem?_eq_some.mp hp).1] at hr
          cases hr
          obtain ⟨o, ho, hob⟩ := ih.2 pid p hp
          exact ⟨o, ho, by rw [hb3, hob]⟩
        · rw [List.getElem?_set_ne hi] at hr
          exact ih.2 i r hr

theorem sum_map_set_int (f : Process → Int) (a : Process) :
    ∀ (l : List Process) (i : Nat) (r : Process), l[i]? = some r →
      ((l.set i a).map f).sum = (l.map f).sum - f r + f a := by
  intro l
  induction l with
  | nil => intro i r h; simp at h
  | cons x xs ih =>
    intro i r h
    cases i with
    | zero =>
      simp only [List.getElem?_cons_zero, Option.some.injEq] at h
      subst h
      simp only [List.set_cons_zero, List.map_cons, List.sum_cons]
      omega
    | succ j =>
      simp only [List.getElem?_cons_succ] at h
      have := ih j r h
      simp only [List.set_cons_succ, List.map_cons, List.sum_cons]
      omega

/-- The range invariant of the clock holds on entry to the loop. -/
theorem clockInv_init (ps : List Process) (harr : ∀ p ∈ ps, 0 ≤ p._arrival_time)
    (hburst : ∀ p ∈ ps, 0 < p._burst_time)
    (hbound : ∀ p ∈ ps, p._arrival_time + (ps.map (fun q => q._burst_time)).sum ≤ INT_MAX) :
    ClockInv (init ps) := by
  have hb : ((init ps)._processes.map (fun q => q._burst_time)).sum =
      (ps.map (fun q => q._burst_time)).sum := by
    simp only [init, List.map_map]
    rfl
  have hr : ((init ps)._processes.map (fun q => q._remaining_time)).sum =
      (ps.map (fun q => q._burst_time)).sum := by
    simp only [init, List.map_map]
    rfl
  refine ⟨le_refl _, ?_, ?_, ?_⟩
  · intro r hr
    simp only [init, List.mem_map] at hr
    obtain ⟨a, ha, rfl⟩ := hr
    exact harr a ha
  · intro r hr
    rw [hb]
    simp only [init, List.mem_map] at hr
    obtain ⟨a, ha, rfl⟩ := hr
    exact hbound a ha
  · rw [hr]
    show (0 : Int) + _ ≤ INT_MAX
    cases ps with
    | nil => simp [INT_MAX]
    | cons x xs =>
      have h1 := hbound x (List.mem_cons_self _ _)
      have h2 := harr x (List.mem_cons_self _ _)
      omega

/-- An iteration keeps the range invariant of the clock: a slice moves work
left to the clock, and the idle skip sets the clock to an arrival time. -/
theorem clockInv_step (quantum : Int) (hquantum : 0 < quantum) (s s1 : State)
    (inv : LoopInv s) (cinv : ClockInv s) (hc : s.completed < s._processes.length)
    (hiter : iteration quantum s = .returned s1) (inv1 : LoopInv s1) : ClockInv s1 := by
  obtain ⟨pid, rest, hq⟩ : ∃ pid rest, s.ready_queue = pid :: rest := by
    cases hrq : s.ready_queue with
    | nil => exact absurd hrq (inv.nonempty hc)
    | cons a l => exact ⟨a, l, rfl⟩
  have hpid : pid < s._processes.length := inv.queueBound pid (by rw [hq]; simp)
  have hp : s._processes[pid]? = some s._processes[pid] := List.getElem?_eq_getElem hpid
  obtain ⟨s2, hiter2, p3, hps, hrem3, hb3, ha3, _, _, _, hqt⟩ :=
    iteration_facts quantum s pid rest _ hq hp
  rw [hiter] at hiter2
  cases hiter2
  obtain ⟨hp0, _⟩ := inv.remBounds _ (List.getElem?_mem hp)
  have hslice0 : 0 ≤ min quantum s._processes[pid]._remaining_time := le_min (by omega) hp0
  have hbsum : (s1._processes.map (fun q => q._burst_time)).sum =
      (s._processes.map (fun q => q._burst_time)).sum := by
    rw [hps, sum_map_set_int (fun q => q._burst_time) p3 _ pid _ hp]
    omega
  have hrsum : (s1._processes.map (fun q => q._remaining_time)).sum =
      (s._processes.map (fun q => q._remaining_time)).sum -
        min quantum s._processes[pid]._remaining_time := by
    rw [hps, sum_map_set_int (fun q => q._remaining_time) p3 _ pid _ hp]
    omega
  have hmem : ∀ r ∈ s1._processes, ∃ r0 ∈ s._processes,
      r._arrival_time = r0._arrival_time := by
    intro r hr
    rw [hps] at hr
    rcases List.mem_or_eq_of_mem_set hr with h | h
    · exact ⟨r, h, rfl⟩
    · exact ⟨_, List.getElem?_mem hp, by rw [h, ha3]⟩
  have hle : (s1._processes.map (fun q => q._remaining_time)).sum ≤
      (s1._processes.map (fun q => q._burst_time)).sum :=
    List.sum_le_sum (fun r hr => (inv1.remBounds r hr).2)
  have harr1 : ∀ r ∈ s1._processes, 0 ≤ r._arrival_time := by
    intro r hr
    obtain ⟨r0, hr0, e⟩ := hmem r hr
    rw [e]
    exact cinv.arrNonneg r0 hr0
  have hbound1 : ∀ r ∈ s1._processes,
      r._arrival_time + (s1._processes.map (fun q => q._burst_time)).sum ≤ INT_MAX := by
    intro r hr
    obtain ⟨r0, hr0, e⟩ := hmem r hr
    rw [e, hbsum]
    exact cinv.arrBound r0 hr0
  have htime : s1.current_time = (idleSkip s1._processes s1.completed_process s1.completed
      (admission s1._processes s1.completed_process
          (s.current_time + min quantum s._processes[pid]._remaining_time) rest ++
        (if s1.completed_process[pid]? = some 0 then [pid] else []))
      (s.current_time + min quantum s._processes[pid]._remaining_time)).2 :=
    congrArg Prod.snd hqt
  have h0 := cinv.timeNonneg
  have htot := cinv.total
  rcases idleSkip_cases s1._processes s1.completed_process s1.completed
    (admission s1._processes s1.completed_process
        (s.current_time + min quantum s._processes[pid]._remaining_time) rest ++
      (if s1.completed_process[pid]? = some 0 then [pid] else []))
    (s.current_time + min quantum s._processes[pid]._remaining_time) with h | h
  · rw [h] at htime
    exact ⟨by omega, harr1, hbound1, by omega⟩
  · obtain ⟨_, _, m, r, _, hr, h⟩ := h
    rw [h] at htime
    have hrm := List.getElem?_mem hr
    have := harr1 r hrm
    have := hbound1 r hrm
    exact ⟨by omega, harr1, hbound1, by omega⟩

/-- In every state at the head of the loop the clock is between 0 and
`INT_MAX`, and so is the clock plus the work left. -/
theorem reachable_clockInv (quantum : Int) (hquantum : 0 < quantum) (ps : List Process)
    (hne : ps ≠ []) (harr : ∀ p ∈ ps, 0 ≤ p._arrival_time)
    (hburst : ∀ p ∈ ps, 0 < p._burst_time)
    (hbound : ∀ p ∈ ps, p._arrival_time + (ps.map (fun q => q._burst_time)).sum ≤ INT_MAX)
    (s : State) (hs : Reachable quantum ps s) : ClockInv s := by
  induction hs with
  | entry => exact clockInv_init ps harr hburst hbound
  | step s s1 hs0 hc hiter ih =>
    have inv := reachable_loopInv quantum hquantum ps hne hburst s hs0
    have inv1 := reachable_loopInv quantum hquantum ps hne hburst s1
      (Reachable.step s s1 hs0 hc hiter)
    exact clockInv_step quantum hquantum s s1 inv ih hc hiter inv1

/-- From a state that meets the invariant the loop returns once the fuel
exceeds the termination measure. -/
theorem rr_loop_terminates (quantum : Int) (hquantum : 0 < quantum) :
    ∀ (fuel : Nat) (s : State), LoopInv s → measure s < fuel →
      ∃ s1, loop quantum fuel s = .returned s1 := by
  intro fuel
  induction fuel with
  | zero => intro s _ h; omega
  | succ f ih =>
    intro s inv hm
    simp only [loop]
    by_cases hc : s.completed < s._processes.length
    · obtain ⟨s1, hiter, inv1, _, _, _, hlt⟩ := LoopInv.step quantum hquantum s inv hc
      obtain ⟨s2, hloop⟩ := ih s1 inv1 (by omega)
      exact ⟨s2, by simp only [hc, if_true, hiter, Outcome.andThen]; exact hloop⟩
    · exact ⟨s, by simp only [hc, if_false]⟩

/-- Claim C16. For burst times > 0 and a quantum > 0, in every state at the
head of the loop of `RRScheduler::schedule` (so after every iteration) each
record has `0 <= remaining_time <= burst_time`, where the burst time is the one
the input gave that index, and an iteration leaves no record with more remaining
time than it had. -/
theorem C16_remaining_time_invariant (ps : List Process) (quantum : Int)
    (hburst : ∀ p ∈ ps, 0 < p._burst_time) (hquantum : 0 < quantum)
    (s : State) (hs : Reachable quantum ps s) :
    s._processes.length = ps.length ∧
    (∀ (i : Nat) (r : Process), s._processes[i]? = some r →
      0 ≤ r._remaining_time ∧ r._remaining_time ≤ r._burst_time ∧
      ∃ o, ps[i]? = some o ∧ r._burst_time = o._burst_time) ∧
    (s.completed < s._processes.length →
      ∃ s1, iteration quantum s = .returned s1 ∧
        ∀ (i : Nat) (r r1 : Process), s._processes[i]? = some r →
          s1._processes[i]? = some r1 → r1._remaining_time ≤ r._remaining_time) := by
  obtain ⟨hlen, hstatic⟩ := reachable_static quantum ps s hs
  by_cases hne : ps = []
  · subst hne
    have := reachable_of_nil quantum s hs
    subst this
    refine ⟨rfl, ?_, ?_⟩
    · intro i r hr
      simp [init] at hr
    · intro hc
      simp [init] at hc
  · have inv := reachable_loopInv quantum hquantum ps hne hburst s hs
    refine ⟨hlen, ?_, ?_⟩
    · intro i r hr
      obtain ⟨h0, h1⟩ := inv.remBounds r (List.getElem?_mem hr)
      exact ⟨h0, h1, hstatic i r hr⟩
    · intro hc
      obtain ⟨s1, hiter, _, _, _, hmono, _⟩ := LoopInv.step quantum hquantum s inv hc
      exact ⟨s1, hiter, fun i r r1 hr hr1 => (hmono i r r1 hr hr1).1⟩

/-- Instance of C16: the state after the first iteration of the run of `main`. -/
theorem C16_remaining_time_invariant_witness :
    mainAfterFirstSlice._processes.length = mainWorkload.length ∧
    (∀ (i : Nat) (r : Process), mainAfterFirstSlice._processes[i]? = some r →
      0 ≤ r._remaining_time ∧ r._remaining_time ≤ r._burst_time ∧
      ∃ o, mainWorkload[i]? = some o ∧ r._burst_time = o._burst_time) ∧
    (mainAfterFirstSlice.completed < mainAfterFirstSlice._processes.length →
      ∃ s1, iteration 3 mainAfterFirstSlice = .returned s1 ∧
        ∀ (i : Nat) (r r1 : Process), mainAfterFirstSlice._processes[i]? = some r →
          s1._processes[i]? = some r1 → r1._remaining_time ≤ r._remaining_time) :=
  C16_remaining_time_invariant mainWorkload 3 (by decide) (by decide) mainAfterFirstSlice
    (Reachable.step (init mainWorkload) _ Reachable.entry (by decide) (by decide))

/-- Claim C17. For arrival times >= 0, burst times > 0, a quantum > 0 and a
latest arrival time plus total burst time of at most `INT_MAX` (so that no value
of the clock leaves the range of `int`), every iteration of the loop of
`RRScheduler::schedule` (from a state at the head of the loop with
`completed < n`) returns, and the clock at its end is no earlier than at its
start; both values are between 0 and `INT_MAX`. This covers the iterations that
end in the idle skip. -/
theorem C17_clock_never_goes_back (ps : List Process) (quantum : Int)
    (harr : ∀ p ∈ ps, 0 ≤ p._arrival_time)
    (hburst : ∀ p ∈ ps, 0 < p._burst_time) (hquantum : 0 < quantum)
    (hbound : ∀ p ∈ ps, p._arrival_time + (ps.map (fun q => q._burst_time)).sum ≤ INT_MAX)
    (s : State) (hs : Reachable quantum ps s) (hc : s.completed < s._processes.length) :
    ∃ s1, iteration quantum s = .returned s1 ∧ 0 ≤ s.current_time ∧
      s.current_time ≤ s1.current_time ∧ s1.current_time ≤ INT_MAX := by
  by_cases hne : ps = []
  · subst hne
    have := reachable_of_nil quantum s hs
    subst this
    simp [init] at hc
  · have inv := reachable_loopInv quantum hquantum ps hne hburst s hs
    have cinv := reachable_clockInv quantum hquantum ps hne harr hburst hbound s hs
    obtain ⟨s1, hiter, inv1, _, htime, _⟩ := LoopInv.step quantum hquantum s inv hc
    have cinv1 := clockInv_step quantum hquantum s s1 inv cinv hc hiter inv1
    have hsum : 0 ≤ (s1._processes.map (fun q => q._remaining_time)).sum := by
      apply List.sum_nonneg
      intro x hx
      obtain ⟨r, hr, rfl⟩ := List.mem_map.mp hx
      exact (inv1.remBounds r hr).1
    have := cinv1.total
    exact ⟨s1, hiter, cinv.timeNonneg, htime, by omega⟩

/-- Instance of C17: an iteration that ends in the idle skip, the clock going
from 0 to 10. -/
theorem C17_clock_never_goes_back_witness :
    ∃ s1, iteration 3 (init [Process.new 0 0 1, Process.new 1 10 1, Process.new 2 5 1]) =
        .returned s1 ∧
      0 ≤ (init [Process.new 0 0 1, Process.new 1 10 1, Process.new 2 5 1]).current_time ∧
      (init [Process.new 0 0 1, Process.new 1 10 1, Process.new 2 5 1]).current_time ≤
        s1.current_time ∧ s1.current_time ≤ INT_MAX :=
  C17_clock_never_goes_back [Process.new 0 0 1, Process.new 1 10 1, Process.new 2 5 1] 3
    (by decide) (by decide) (by decide) (by decide) _ Reachable.entry (by decide)

/-- Claim C18. For a workload of at least one process, burst times > 0 and a
quantum > 0, the loop of `RRScheduler::schedule` finishes (the run returns for
every fuel above a bound), and the ready queue is not empty in any state at the
head of the loop with `completed < n`. -/
theorem C18_round_robin_terminates (ps : List Process) (quantum : Int) (hne : ps ≠ [])
    (hburst : ∀ p ∈ ps, 0 < p._burst_time) (hquantum : 0 < quantum) :
    (∃ N : Nat, ∀ fuel, N ≤ fuel → ∃ out, schedule fuel ps quantum = .returned out) ∧
    ∀ s, Reachable quantum ps s → s.completed < s._processes.length →
      s.ready_queue ≠ [] := by
  constructor
  · refine ⟨measure (init ps) + 1, fun fuel hfuel => ?_⟩
    obtain ⟨s1, hloop⟩ := rr_loop_terminates quantum hquantum fuel (init ps)
      (loopInv_init ps hne hburst) (by omega)
    exact ⟨s1._processes, by simp only [schedule, hloop, Outcome.mapReturned, Outcome.andThen]⟩
  · intro s hs hc
    exact (reachable_loopInv quantum hquantum ps hne hburst s hs).nonempty hc

/-- Instance of C18 on the workload of `main` with quantum 3. -/
theorem C18_round_robin_terminates_witness :
    (∃ N : Nat, ∀ fuel, N ≤ fuel →
      ∃ out, schedule fuel mainWorkload 3 = .returned out) ∧
    ∀ s, Reachable 3 mainWorkload s → s.completed < s._processes.length →
      s.ready_queue ≠ [] :=
  C18_round_robin_terminates mainWorkload 3 (by decide) (by decide) (by decide)

/-! ## Round Robin: a quantum that is not positive -/

end RRScheduler

namespace SRTScheduler

/-- Claim C19. When, after the internal sort by arrival time, the record at
index `i` has pid `i` (arrival times non-negative, burst times positive, records
as constructed), the loop of `SRTScheduler::schedule` finishes: for every fuel
above a bound it returns, in a state whose counter `completed` is the number of
processes. -/
theorem C19_srt_terminates (Q : PQImpl) (hQ : Q.Lawful) (ps : List Process)
    (hpid : ∀ (i : Nat) (r : Process), (sortByArrival ps)[i]? = some r → r._pid = (i : Int))
    (hin : ∀ p ∈ ps, 0 ≤ p._arrival_time ∧ 0 < p._burst_time ∧
      p._remaining_time = p._burst_time ∧ p._start_time = -1) :
    ∃ N : Nat, ∀ fuel, N ≤ fuel →
      ∃ s1, loop Q fuel (init Q (sortByArrival ps)) = .returned s1 ∧
        s1.completed = ps.length ∧ s1._processes.length = ps.length := by
  have hfresh : ∀ r ∈ sortByArrival ps, FreshRec r := by
    intro r hr
    obtain ⟨h1, h2, h3, h4⟩ := hin r ((sortByArrival_perm ps).mem_iff.mp hr)
    exact ⟨h3, h2, h4, h1⟩
  have inv0 := inv_init Q hQ (sortByArrival ps) _ hpid hfresh (arrival_le_sum _)
  refine ⟨potential ((((sortByArrival ps).map (fun q => q._arrival_time.toNat)).sum : Nat))
    (init Q (sortByArrival ps))._processes (Q.contents (init Q (sortByArrival ps)).pq)
    (init Q (sortByArrival ps)).current_time + 1, ?_⟩
  intro fuel hfuel
  obtain ⟨s1, hloop, inv1, hdone, _⟩ := loop_terminates hQ fuel _ inv0 (by omega)
  have hlen : s1._processes.length = ps.length := by
    rw [inv1.len]
    exact (sortByArrival_perm ps).length_eq
  exact ⟨s1, hloop, by rw [hdone, hlen], hlen⟩

/-- Instance of C19 on the workload of `main` in `srts.cpp`, with the list
queue. -/
theorem C19_srt_terminates_witness :
    ∃ N : Nat, ∀ fuel, N ≤ fuel →
      ∃ s1, loop listQueue fuel (init listQueue (sortByArrival mainWorkload)) = .returned s1 ∧
        s1.completed = mainWorkload.length ∧ s1._processes.length = mainWorkload.length :=
  C19_srt_terminates listQueue listQueue_lawful mainWorkload mainWorkload_pid_index
    mainWorkload_constructed

end SRTScheduler
